import Mathlib

/-!
Verification of the knowledge-tree generator core (orchestrator, forward and
backward pass engines, seed gathering, and the MVG reconstruction service)
against its natural-language specification.  The Python source is shallowly
embedded: dataclasses become structures, the orchestrator while-loop becomes a
fuel-indexed recursion whose fuel is exactly the `max_iterations` guard,
stateful store mutation becomes explicit state passing, exceptions become
`Except`, and external collaborators (wikipedia extractor, resource enricher,
definition formatter, shuffle randomness, id generation) become function
parameters.  Ghost event logs are threaded through the loops so that
per-candidate properties can be stated; the logs never influence control flow.
-/

namespace KnowledgeTree

/-- Direction of a generation pass (the orchestrator's `pass_type` string). -/
inductive PassType
  | forward
  | backward
deriving DecidableEq, Repr

/-- Flip of the pass direction, as done unconditionally after each pass. -/
def PassType.flip : PassType → PassType
  | .forward => .backward
  | .backward => .forward

/-- The part of a pass result the orchestrator consumes:
`result.concepts_added` and `result.errors`. -/
structure PassOutcome where
  concepts_added : Nat
  errors : List String
deriving DecidableEq, Repr

/-- `OrchestratorConfig` from `orchestrator.py`.  `passFrac` embeds the float
field `pass_ratio` as a rational. -/
structure OrchestratorConfig where
  passFrac : ℚ
  domains : List String
  forward_max_complexity : Int
  backward_min_complexity : Int
  max_iterations : Nat
  max_errors_per_pass : Nat

/-- Default configuration values of `OrchestratorConfig`. -/
def OrchestratorConfig.defaults : OrchestratorConfig :=
  { passFrac := 1/10
    domains := ["MATH"]
    forward_max_complexity := 3
    backward_min_complexity := 2
    max_iterations := 100
    max_errors_per_pass := 10 }

/-- The two pass engines as seen by the orchestrator: a function from the
index of this pass (how many passes of this direction ran before) and the
requested term count to an outcome.  This covers arbitrary engine behaviour,
including engines that always add zero concepts. -/
structure PassEngines where
  fwd : Nat → Nat → PassOutcome
  bwd : Nat → Nat → PassOutcome

/-- Ghost record of one executed pass: its direction, the value of `current`
when it started, the requested batch `min(batch_size, target - current)` and
the number of concepts the engine reported as added. -/
structure PassRecord where
  ptype : PassType
  currentBefore : Nat
  requested : Nat
  added : Nat
deriving DecidableEq, Repr

/-- Loop state of `Orchestrator.run`: the mutable locals of the Python loop
plus a ghost trace of the executed passes. -/
structure OrchState where
  current : Nat
  passType : PassType
  forwardTotal : Nat
  backwardTotal : Nat
  forwardPasses : Nat
  backwardPasses : Nat
  allErrors : List String
  trace : List PassRecord
deriving DecidableEq, Repr

/-- Initial loop state (`current = 0`, `pass_type = "forward"`, all totals 0). -/
def initOrchState : OrchState :=
  { current := 0, passType := .forward, forwardTotal := 0, backwardTotal := 0
    forwardPasses := 0, backwardPasses := 0, allErrors := [], trace := [] }

/-- Python `int()` on a rational: truncation toward zero. -/
def pyTrunc (q : ℚ) : Int :=
  if q < 0 then Int.ceil q else Int.floor q

/-- `batch_size = max(1, int(target_terms * pass_ratio))`, computed once
before the loop. -/
def batchSize (target : Nat) (frac : ℚ) : Nat :=
  (max 1 (pyTrunc ((target : ℚ) * frac))).toNat

/-- One iteration of the orchestrator loop: compute `terms_this_batch`,
execute the pass of the current direction, accumulate the direction totals,
pass counters and errors, flip the direction unconditionally, and advance
`current` by the reported added count. -/
def orchStep (eng : PassEngines) (batch target : Nat) (s : OrchState) : OrchState :=
  let requested := min batch (target - s.current)
  match s.passType with
  | .forward =>
    let r := eng.fwd s.forwardPasses requested
    { current := s.current + r.concepts_added
      passType := .backward
      forwardTotal := s.forwardTotal + r.concepts_added
      backwardTotal := s.backwardTotal
      forwardPasses := s.forwardPasses + 1
      backwardPasses := s.backwardPasses
      allErrors := s.allErrors ++ r.errors
      trace := s.trace ++ [⟨.forward, s.current, requested, r.concepts_added⟩] }
  | .backward =>
    let r := eng.bwd s.backwardPasses requested
    { current := s.current + r.concepts_added
      passType := .forward
      forwardTotal := s.forwardTotal
      backwardTotal := s.backwardTotal + r.concepts_added
      forwardPasses := s.forwardPasses
      backwardPasses := s.backwardPasses + 1
      allErrors := s.allErrors ++ r.errors
      trace := s.trace ++ [⟨.backward, s.current, requested, r.concepts_added⟩] }

/-- The `while current < target_terms and iteration < max_iterations` loop.
The fuel argument is exactly `max_iterations - iteration`: the loop body
increments `iteration` by one each time, so the Python guard is the
conjunction of `current < target` with nonzero fuel. -/
def orchLoop (eng : PassEngines) (batch target : Nat) : Nat → OrchState → OrchState
  | 0, s => s
  | fuel + 1, s =>
    if s.current < target then
      orchLoop eng batch target fuel (orchStep eng batch target s)
    else s

/-- `GenerationResult` from `orchestrator.py`, with the ghost pass trace. -/
structure GenerationResult where
  total_concepts_added : Nat
  forward_concepts : Nat
  backward_concepts : Nat
  total_passes : Nat
  forward_passes : Nat
  backward_passes : Nat
  all_errors : List String
  trace : List PassRecord
deriving DecidableEq, Repr

/-- The `success` property of `GenerationResult`. -/
def GenerationResult.success (r : GenerationResult) : Bool :=
  decide (0 < r.total_concepts_added) && decide (r.all_errors.length < 20)

/-- `Orchestrator.run(target_terms, domains)`: compute `batch_size` once,
run the alternating loop from the initial state, and package the totals.
`total_concepts_added` is the final `current`; `total_passes` is the sum of
the per-direction pass counters, as in the source. -/
def Orchestrator.run (cfg : OrchestratorConfig) (eng : PassEngines)
    (target : Nat) : GenerationResult :=
  let batch := batchSize target cfg.passFrac
  let s := orchLoop eng batch target cfg.max_iterations initOrchState
  { total_concepts_added := s.current
    forward_concepts := s.forwardTotal
    backward_concepts := s.backwardTotal
    total_passes := s.forwardPasses + s.backwardPasses
    forward_passes := s.forwardPasses
    backward_passes := s.backwardPasses
    all_errors := s.allErrors
    trace := s.trace }

/-- A trace chains correctly from `c` to `c1` for a fixed batch and target:
each record starts at the running `current`, requests
`min(batch, target - current)`, and advances `current` by its added count. -/
inductive Chained (batch target : Nat) : Nat → List PassRecord → Nat → Prop
  | nil (c : Nat) : Chained batch target c [] c
  | cons (c : Nat) (r : PassRecord) (rest : List PassRecord) (c1 : Nat)
      (hb : r.currentBefore = c)
      (hr : r.requested = min batch (target - c))
      (htail : Chained batch target (c + r.added) rest c1) :
      Chained batch target c (r :: rest) c1

/-- A trace strictly alternates directions starting from `p`. -/
def alternates : PassType → List PassRecord → Prop
  | _, [] => True
  | p, r :: rest => r.ptype = p ∧ alternates p.flip rest

/-- Direction after `n` alternating passes starting from `p`. -/
def afterType (p : PassType) (n : Nat) : PassType :=
  if n % 2 = 0 then p else p.flip

/-- A concept node: the dict built by the pass engines (the fields of the
`Concept` dataclass in `app/db/concept.py`). -/
structure Concept where
  id : String
  name : String
  definition_md : String
  domain : String
  subfield : String
  complexity_level : Int
  books : List String
  papers : List String
  articles : List String
  related_concepts : List String
  llm_summary : String
  is_axiom : Bool
  is_verified : Bool
deriving DecidableEq, Repr

/-- `ExtractedConcept` from `generator/extractors/base.py`. -/
structure ExtractedConcept where
  name : String
  raw_definition : String
  domain : String
  subfield : String
  source_url : String := ""
  source_type : String := ""
  notations : List String := []
  examples : List String := []
  prerequisites : List String := []
  related_terms : List String := []
  books : List String := []
  papers : List String := []
  articles : List String := []
  latex_fragments : List String := []
deriving DecidableEq, Repr

/-- `RawConceptData` from `definition_formatter.py`. -/
structure RawConceptData where
  name : String
  domain : String
  definition : String
  subfield : String
  notations : List String
  examples : List String
deriving DecidableEq, Repr

/-- Concrete concept-store state: concepts in insertion order plus the
REQUIRES edges added so far. -/
structure Store where
  concepts : List Concept
  requires : List (String × String)
deriving DecidableEq, Repr

/-- Whether the first list is an initial segment of the second. -/
def strLeads : List Char → List Char → Bool
  | [], _ => true
  | _ :: _, [] => false
  | a :: as, b :: bs => a == b && strLeads as bs

/-- Whether `pat` occurs as a contiguous substring of `s` (used to state what
an error message does or does not mention). -/
def strHas (s pat : String) : Bool :=
  (List.range (s.toList.length + 1)).any (fun i => strLeads pat.toList (s.toList.drop i))

/-- ASCII lowercasing of one character (the model of Python `str.lower` on
the ASCII names this system handles). -/
def lowerChar (c : Char) : Char :=
  if 65 ≤ c.toNat && c.toNat ≤ 90 then Char.ofNat (c.toNat + 32) else c

/-- Python `str.lower()` (ASCII model). -/
def pyLower (s : String) : String :=
  String.mk (s.toList.map lowerChar)

/-- Python whitespace as stripped by `str.strip()`. -/
def pyIsWs (c : Char) : Bool :=
  c.toNat == 32 || c.toNat == 9 || c.toNat == 10 || c.toNat == 13 || c.toNat == 12 || c.toNat == 11

/-- Python `str.strip()`: drop leading and trailing whitespace. -/
def pyStrip (s : String) : String :=
  String.mk (((s.toList.dropWhile pyIsWs).reverse.dropWhile pyIsWs).reverse)

/-- Whether `s` starts with `pre`. -/
def strStarts (s pre : String) : Bool :=
  strLeads pre.toList s.toList

/-- Whether `s` ends with `suf`. -/
def strEnds (s suf : String) : Bool :=
  strLeads suf.toList.reverse s.toList.reverse

/-- Exact-name `get_by_name` over a concept list (the behaviour of the test
mock store, which compares names with `==`). -/
def findByNameExact (cs : List Concept) (n : String) : Option Concept :=
  cs.find? (fun c => c.name == n)

/-- Case-insensitive `get_by_name` over a concept list (the behaviour of the
CLI's `InMemoryConceptStore`, which keys concepts by `name.lower()`). -/
def findByNameCI (cs : List Concept) (n : String) : Option Concept :=
  cs.find? (fun c => pyLower c.name == pyLower n)

/-- `store.get_axioms(domain)` for the concrete stores. -/
def Store.getAxioms (st : Store) (domain : String) : List Concept :=
  st.concepts.filter (fun c => c.is_axiom && c.domain == domain)

/-- `store.get_by_complexity_range(domain, lo, hi)` for the concrete stores. -/
def Store.getByComplexityRange (st : Store) (domain : String) (lo hi : Int) : List Concept :=
  st.concepts.filter (fun c =>
    c.domain == domain && decide (lo ≤ c.complexity_level) && decide (c.complexity_level ≤ hi))

/-- `store.get_complex_concepts(domain, min_level)` for the concrete stores. -/
def Store.getComplexAtLeast (st : Store) (domain : String) (minLevel : Int) : List Concept :=
  st.concepts.filter (fun c => c.domain == domain && decide (minLevel ≤ c.complexity_level))

/-- Store behaviour the engines are generic over.  `lookup` is the store's
`get_by_name`; `createExc` and `addRequiresExc` inject the exception (if any)
the store raises on `create` / `add_requires`, so theorems can quantify over
fallible stores; `incomplete` models `get_incomplete_concepts`, whose
semantics is store-specific. -/
structure StoreOps where
  lookup : List Concept → String → Option Concept
  createExc : Concept → Option String
  addRequiresExc : String → String → Option String
  incomplete : List Concept → String → List Concept

/-- `store.create(concept)`: either raises the injected exception (state
unchanged) or appends the concept and echoes it back. -/
def StoreOps.create (ops : StoreOps) (st : Store) (c : Concept) :
    Store × Except String Concept :=
  match ops.createExc c with
  | some e => (st, .error e)
  | none => ({ st with concepts := st.concepts ++ [c] }, .ok c)

/-- `store.add_requires(a, b)`: either raises or records the edge. -/
def StoreOps.addRequires (ops : StoreOps) (st : Store) (a b : String) :
    Store × Except String Unit :=
  match ops.addRequiresExc a b with
  | some e => (st, .error e)
  | none => ({ st with requires := st.requires ++ [(a, b)] }, .ok ())

/-- External collaborators of the pass engines, as functions: the text-mining
heuristics (`_extract_related_terms`, `_find_prerequisites`, including their
LLM supplement), the wikipedia extractor, the resource enricher, the
definition formatter (whose LLM call may raise), uuid-based id generation,
and the `random.shuffle` permutation. -/
structure Env where
  shuffle : List Concept → List Concept
  relatedTerms : Concept → List String
  findPrereqs : Concept → String → List String
  canExtract : String → Bool
  extract : String → String → String → Except String (Option ExtractedConcept)
  enrich : ExtractedConcept → ExtractedConcept
  formatDefinition : RawConceptData → Except String String
  genId : String → String → String → String

/-- `ForwardPassEngine._get_seed_concepts`: all axioms of the domain and
then, only if fewer than 20 seeds were gathered, shuffled concepts of
complexity 1..max_complexity truncated to `20 - len(seeds)`. -/
def getSeedConcepts (env : Env) (st : Store) (domain : String) (maxComplexity : Int) :
    List Concept :=
  let seeds := st.getAxioms domain
  if seeds.length < 20 then
    let lowC := env.shuffle (st.getByComplexityRange domain 1 maxComplexity)
    seeds ++ lowC.take (20 - seeds.length)
  else seeds

/-- A single-quote character as a string (kept out of literals). -/
def sq : String := String.singleton (Char.ofNat 39)

/-- Forward-pass per-candidate error message, as formatted by the source:
the candidate term in quotes, then the exception text. -/
def fwdErrMsg (term msg : String) : String :=
  ("Failed to create " ++ sq) ++ term ++ (sq ++ ": " ++ msg)

/-- Backward-pass per-candidate error message. -/
def bwdErrMsg (term msg : String) : String :=
  ("Failed to create prerequisite " ++ sq) ++ term ++ (sq ++ ": " ++ msg)

/-- The forward engine's loop linking each mentioned prerequisite name that
resolves in the store (`for prereq_name in extracted.prerequisites`). -/
def linkPrereqs (ops : StoreOps) (cid : String) : Store → List String → Store × Except String Unit
  | st, [] => (st, .ok ())
  | st, n :: rest =>
    match ops.lookup st.concepts n with
    | some p =>
      match ops.addRequiresExc cid p.id with
      | some e => (st, .error e)
      | none => linkPrereqs ops cid { st with requires := st.requires ++ [(cid, p.id)] } rest
    | none => linkPrereqs ops cid st rest

/-- The extracted record used by the creation chain: the wikipedia result if
any, else the minimal fallback onto which the LLM generates, then enriched
with resources. -/
def extractedOf (env : Env) (term domain subfield : String)
    (ext0 : Option ExtractedConcept) : ExtractedConcept :=
  env.enrich (ext0.getD
    { name := term, raw_definition := "", domain := domain, subfield := subfield })

/-- The `RawConceptData` handed to the definition formatter. -/
def rawOf (ex : ExtractedConcept) : RawConceptData :=
  { name := ex.name, domain := ex.domain, definition := ex.raw_definition,
    subfield := ex.subfield, notations := ex.notations, examples := ex.examples }

/-- The concept dict built by both engines before `store.create`. -/
def conceptOf (env : Env) (term domain subfield : String) (lvl : Int)
    (fd : String) (ex : ExtractedConcept) : Concept :=
  { id := env.genId domain subfield term, name := term, definition_md := fd,
    domain := domain, subfield := subfield, complexity_level := lvl,
    books := ex.books, papers := ex.papers, articles := ex.articles,
    related_concepts := ex.related_terms, llm_summary := "",
    is_axiom := false, is_verified := false }

/-- The linking tail of `_extract_and_create_concept` after a successful
`store.create`: link to the seed if present, then to each resolved mentioned
prerequisite, and return the created concept. -/
def afterCreate (ops : StoreOps) (cid : String) (pid : Option String)
    (prereqNames : List String) (created : Concept) (st1 : Store) :
    Store × Except String (Option Concept) :=
  match (match pid with
         | some p => ops.addRequires st1 cid p
         | none => (st1, .ok ())) with
  | (st2, .error e) => (st2, .error e)
  | (st2, .ok _) =>
    match linkPrereqs ops cid st2 prereqNames with
    | (st3, .error e) => (st3, .error e)
    | (st3, .ok _) => (st3, .ok (some created))

/-- `ForwardPassEngine._extract_and_create_concept`: extract (wikipedia or a
minimal fallback record), enrich, format the definition, build the concept
dict with `complexity_level = base_complexity + 1`, create it, link it to the
seed and to any resolved mentioned prerequisites.  An exception anywhere in
the chain surfaces as `.error`; store effects made before it persist. -/
def extractAndCreateConcept (env : Env) (ops : StoreOps)
    (term domain subfield : String) (prerequisiteId : Option String)
    (baseComplexity : Int) (st : Store) : Store × Except String (Option Concept) :=
  match (if env.canExtract term then env.extract term domain subfield else .ok none) with
  | .error e => (st, .error e)
  | .ok ext0 =>
    let ex := extractedOf env term domain subfield ext0
    match env.formatDefinition (rawOf ex) with
    | .error e => (st, .error e)
    | .ok fd =>
      let concept := conceptOf env term domain subfield (baseComplexity + 1) fd ex
      match ops.create st concept with
      | (st1, .error e) => (st1, .error e)
      | (st1, .ok created) =>
        afterCreate ops concept.id prerequisiteId ex.prerequisites created st1

/-- Ghost per-candidate event of the forward pass. -/
inductive FwdEvent
  | skippedExisting (term : String)
  | created (c : Concept) (seed : Concept)
  | createdNone (term : String)
  | failed (term : String) (msg : String)
deriving DecidableEq, Repr

/-- Accumulator of `ForwardPassEngine.execute` plus the store and a ghost
event log. -/
structure FwdState where
  store : Store
  added : Nat
  skipped : Nat
  errors : List String
  log : List FwdEvent
deriving DecidableEq, Repr

/-- Candidate-term loop of `ForwardPassEngine.execute`: terms found by
`get_by_name` are skipped; otherwise the extraction-creation-linking sequence
runs inside try/except, so a failure appends one formatted error and the loop
continues with the next candidate. -/
def fwdTerms (env : Env) (ops : StoreOps) (target : Nat) (domain : String)
    (seed : Concept) : FwdState → List String → FwdState
  | s, [] => s
  | s, term :: rest =>
    if target ≤ s.added then s
    else
      match ops.lookup s.store.concepts term with
      | some _ =>
        fwdTerms env ops target domain seed
          { s with skipped := s.skipped + 1,
                   log := s.log ++ [FwdEvent.skippedExisting term] } rest
      | none =>
        match extractAndCreateConcept env ops term domain seed.subfield
            (some seed.id) seed.complexity_level s.store with
        | (st1, .ok (some c)) =>
          fwdTerms env ops target domain seed
            { s with store := st1, added := s.added + 1,
                     log := s.log ++ [FwdEvent.created c seed] } rest
        | (st1, .ok none) =>
          fwdTerms env ops target domain seed
            { s with store := st1, skipped := s.skipped + 1,
                     log := s.log ++ [FwdEvent.createdNone term] } rest
        | (st1, .error e) =>
          fwdTerms env ops target domain seed
            { s with store := st1, errors := s.errors ++ [fwdErrMsg term e],
                     log := s.log ++ [FwdEvent.failed term e] } rest

/-- Seed loop of the forward pass. -/
def fwdSeeds (env : Env) (ops : StoreOps) (target : Nat) (domain : String) :
    FwdState → List Concept → FwdState
  | s, [] => s
  | s, seed :: rest =>
    if target ≤ s.added then s
    else
      fwdSeeds env ops target domain
        (fwdTerms env ops target domain seed s (env.relatedTerms seed)) rest

/-- Domain loop of the forward pass. -/
def fwdDomains (env : Env) (ops : StoreOps) (target : Nat) (maxComplexity : Int) :
    FwdState → List String → FwdState
  | s, [] => s
  | s, domain :: rest =>
    if target ≤ s.added then s
    else
      fwdDomains env ops target maxComplexity
        (fwdSeeds env ops target domain s (getSeedConcepts env s.store domain maxComplexity))
        rest

/-- `ForwardPassEngine.execute(domains, target_count, max_complexity)`. -/
def forwardExecute (env : Env) (ops : StoreOps) (domains : List String)
    (target : Nat) (maxComplexity : Int) (st : Store) : FwdState :=
  fwdDomains env ops target maxComplexity
    { store := st, added := 0, skipped := 0, errors := [], log := [] } domains

/-- `ForwardPassResult` from `forward_pass.py`. -/
structure ForwardPassResult where
  concepts_added : Nat
  concepts_skipped : Nat
  errors : List String
deriving DecidableEq, Repr

/-- The result object the forward pass returns. -/
def FwdState.result (s : FwdState) : ForwardPassResult :=
  { concepts_added := s.added, concepts_skipped := s.skipped, errors := s.errors }

/-- `BackwardPassEngine._create_prerequisite`: the same extraction chain as
the forward creation, but with
`complexity_level = max(1, dependent.complexity_level - 1)` and no linking
(the caller links). -/
def createPrerequisite (env : Env) (ops : StoreOps)
    (term domain subfield : String) (dependent : Concept) (st : Store) :
    Store × Except String (Option Concept) :=
  match (if env.canExtract term then env.extract term domain subfield else .ok none) with
  | .error e => (st, .error e)
  | .ok ext0 =>
    let ex := extractedOf env term domain subfield ext0
    match env.formatDefinition (rawOf ex) with
    | .error e => (st, .error e)
    | .ok fd =>
      let concept := conceptOf env term domain subfield
        (max 1 (dependent.complexity_level - 1)) fd ex
      match ops.create st concept with
      | (st1, .error e) => (st1, .error e)
      | (st1, .ok created) => (st1, .ok (some created))

/-- `BackwardPassEngine._get_complex_concepts`: up to 20 store-reported
incomplete concepts if any; otherwise up to 20 shuffled concepts at or above
`min_level`. -/
def getComplexConcepts (env : Env) (ops : StoreOps) (st : Store)
    (domain : String) (minLevel : Int) : List Concept :=
  let inc := ops.incomplete st.concepts domain
  if inc.isEmpty then (env.shuffle (st.getComplexAtLeast domain minLevel)).take 20
  else inc.take 20

/-- Ghost per-candidate event of the backward pass. -/
inductive BwdEvent
  | linkedExisting (term : String) (existing : Concept)
  | created (c : Concept) (dependent : Concept)
  | createdNone (term : String)
  | failed (term : String) (msg : String)
deriving DecidableEq, Repr

/-- Accumulator of `BackwardPassEngine.execute` plus the store and a ghost
event log. -/
structure BwdState where
  store : Store
  added : Nat
  skipped : Nat
  linked : Nat
  errors : List String
  log : List BwdEvent
deriving DecidableEq, Repr

/-- Candidate loop of `BackwardPassEngine.execute`.  If `get_by_name` finds
the term, it is linked directly — this lookup and `add_requires` call sit
outside the try/except, so an exception there propagates and aborts the whole
pass (`.error`).  Creating a missing prerequisite and linking it sit inside
the try/except: an exception there appends one formatted error and the loop
continues. -/
def bwdTerms (env : Env) (ops : StoreOps) (target : Nat) (domain : String)
    (concept : Concept) : BwdState → List String → Except String BwdState
  | s, [] => .ok s
  | s, term :: rest =>
    if target ≤ s.added then .ok s
    else
      match ops.lookup s.store.concepts term with
      | some ex =>
        match ops.addRequiresExc concept.id ex.id with
        | some e => .error e
        | none =>
          bwdTerms env ops target domain concept
            { s with
              store := { s.store with requires := s.store.requires ++ [(concept.id, ex.id)] },
              linked := s.linked + 1,
              log := s.log ++ [BwdEvent.linkedExisting term ex] } rest
      | none =>
        match createPrerequisite env ops term domain concept.subfield concept s.store with
        | (st1, .ok (some p)) =>
          match ops.addRequiresExc concept.id p.id with
          | some e =>
            bwdTerms env ops target domain concept
              { s with store := st1, errors := s.errors ++ [bwdErrMsg term e],
                       log := s.log ++ [BwdEvent.failed term e] } rest
          | none =>
            bwdTerms env ops target domain concept
              { s with
                store := { st1 with requires := st1.requires ++ [(concept.id, p.id)] },
                added := s.added + 1, linked := s.linked + 1,
                log := s.log ++ [BwdEvent.created p concept] } rest
        | (st1, .ok none) =>
          bwdTerms env ops target domain concept
            { s with store := st1, skipped := s.skipped + 1,
                     log := s.log ++ [BwdEvent.createdNone term] } rest
        | (st1, .error e) =>
          bwdTerms env ops target domain concept
            { s with store := st1, errors := s.errors ++ [bwdErrMsg term e],
                     log := s.log ++ [BwdEvent.failed term e] } rest

/-- Trace-back-concept loop of the backward pass. -/
def bwdConcepts (env : Env) (ops : StoreOps) (target : Nat) (domain : String) :
    BwdState → List Concept → Except String BwdState
  | s, [] => .ok s
  | s, c :: rest =>
    if target ≤ s.added then .ok s
    else
      match bwdTerms env ops target domain c s (env.findPrereqs c domain) with
      | .error e => .error e
      | .ok s1 => bwdConcepts env ops target domain s1 rest

/-- Domain loop of the backward pass. -/
def bwdDomains (env : Env) (ops : StoreOps) (target : Nat) (minComplexity : Int) :
    BwdState → List String → Except String BwdState
  | s, [] => .ok s
  | s, domain :: rest =>
    if target ≤ s.added then .ok s
    else
      match bwdConcepts env ops target domain s
          (getComplexConcepts env ops s.store domain minComplexity) with
      | .error e => .error e
      | .ok s1 => bwdDomains env ops target minComplexity s1 rest

/-- `BackwardPassEngine.execute(domains, target_count, min_complexity)`. -/
def backwardExecute (env : Env) (ops : StoreOps) (domains : List String)
    (target : Nat) (minComplexity : Int) (st : Store) : Except String BwdState :=
  bwdDomains env ops target minComplexity
    { store := st, added := 0, skipped := 0, linked := 0, errors := [], log := [] } domains

/-- `BackwardPassResult` from `backward_pass.py`. -/
structure BackwardPassResult where
  concepts_added : Nat
  concepts_skipped : Nat
  prerequisites_linked : Nat
  errors : List String
deriving DecidableEq, Repr

/-- The result object the backward pass returns. -/
def BwdState.result (s : BwdState) : BackwardPassResult :=
  { concepts_added := s.added, concepts_skipped := s.skipped,
    prerequisites_linked := s.linked, errors := s.errors }

/-- Created (concept, seed) pairs of a forward log. -/
def fwdCreatedPairs : List FwdEvent → List (Concept × Concept)
  | [] => []
  | (FwdEvent.created c seed) :: rest => (c, seed) :: fwdCreatedPairs rest
  | _ :: rest => fwdCreatedPairs rest

/-- Failed (term, exception) pairs of a forward log. -/
def fwdFailedPairs : List FwdEvent → List (String × String)
  | [] => []
  | (FwdEvent.failed t e) :: rest => (t, e) :: fwdFailedPairs rest
  | _ :: rest => fwdFailedPairs rest

/-- Created (concept, dependent) pairs of a backward log. -/
def bwdCreatedPairs : List BwdEvent → List (Concept × Concept)
  | [] => []
  | (BwdEvent.created c dep) :: rest => (c, dep) :: bwdCreatedPairs rest
  | _ :: rest => bwdCreatedPairs rest

/-- Failed (term, exception) pairs of a backward log. -/
def bwdFailedPairs : List BwdEvent → List (String × String)
  | [] => []
  | (BwdEvent.failed t e) :: rest => (t, e) :: bwdFailedPairs rest
  | _ :: rest => bwdFailedPairs rest

/-- A parsed JSON value (the result of `json.loads`).  Numeric lexemes are
kept verbatim; none of the verified paths consume numeric values. -/
inductive JVal
  | jnull
  | jbool (b : Bool)
  | jnum (lexeme : String)
  | jstr (s : String)
  | jarr (xs : List JVal)
  | jobj (fields : List (String × JVal))

/-- The JSON structural characters, named to keep them out of literals. -/
def quoteCh : Char := Char.ofNat 34

/-- Backslash. -/
def backslashCh : Char := Char.ofNat 92

/-- Opening curly brace. -/
def lbraceCh : Char := Char.ofNat 123

/-- Closing curly brace. -/
def rbraceCh : Char := Char.ofNat 125

/-- Opening square bracket. -/
def lbrackCh : Char := Char.ofNat 91

/-- Closing square bracket. -/
def rbrackCh : Char := Char.ofNat 93

/-- JSON whitespace. -/
def jIsWs (c : Char) : Bool :=
  c == ' ' || c == '\n' || c == '\t' || c == '\r'

/-- Drop leading JSON whitespace. -/
def jskipWs : List Char → List Char
  | [] => []
  | c :: cs => if jIsWs c then jskipWs cs else c :: cs

/-- Value of a hexadecimal digit. -/
def hexVal (c : Char) : Option Nat :=
  let n := c.toNat
  if 48 ≤ n && n ≤ 57 then some (n - 48)
  else if 97 ≤ n && n ≤ 102 then some (n - 87)
  else if 65 ≤ n && n ≤ 70 then some (n - 55)
  else none

/-- Parse the body of a JSON string after the opening quote, returning the
decoded string and the input after the closing quote. -/
def parseStrBody : Nat → List Char → Option (String × List Char)
  | 0, _ => none
  | _ + 1, [] => none
  | fuel + 1, c :: cs =>
    if c == quoteCh then some ("", cs)
    else if c == backslashCh then
      match cs with
      | [] => none
      | e :: cs1 =>
        let dec : Option (Char × List Char) :=
          if e == quoteCh then some (quoteCh, cs1)
          else if e == backslashCh then some (backslashCh, cs1)
          else if e == '/' then some ('/', cs1)
          else if e == 'n' then some ('\n', cs1)
          else if e == 't' then some ('\t', cs1)
          else if e == 'r' then some ('\r', cs1)
          else if e == 'b' then some (Char.ofNat 8, cs1)
          else if e == 'f' then some (Char.ofNat 12, cs1)
          else if e == 'u' then
            match cs1 with
            | h1 :: h2 :: h3 :: h4 :: cs2 =>
              match hexVal h1, hexVal h2, hexVal h3, hexVal h4 with
              | some a, some b, some c2, some d =>
                some (Char.ofNat (((a * 16 + b) * 16 + c2) * 16 + d), cs2)
              | _, _, _, _ => none
            | _ => none
          else none
        match dec with
        | none => none
        | some (ch, rest) =>
          match parseStrBody fuel rest with
          | none => none
          | some (s, r) => some (String.singleton ch ++ s, r)
    else if c.toNat < 32 then none
    else
      match parseStrBody fuel cs with
      | none => none
      | some (s, r) => some (String.singleton c ++ s, r)

/-- Split off a maximal run of decimal digits. -/
def takeDigits : List Char → List Char × List Char
  | [] => ([], [])
  | c :: cs =>
    if c.isDigit then
      let (ds, r) := takeDigits cs
      (c :: ds, r)
    else ([], c :: cs)

/-- Lex the optional fraction part of a JSON number. -/
def lexFrac (cs : List Char) : Option (List Char × List Char) :=
  match cs with
  | d :: r =>
    if d == '.' then
      match takeDigits r with
      | ([], _) => none
      | (ds, r2) => some (d :: ds, r2)
    else some ([], cs)
  | [] => some ([], [])

/-- Lex the optional exponent part of a JSON number. -/
def lexExp (cs : List Char) : Option (List Char × List Char) :=
  match cs with
  | e :: r =>
    if e == 'e' || e == 'E' then
      let (sgn, r1) : List Char × List Char :=
        match r with
        | s :: r2 => if s == '+' || s == '-' then ([s], r2) else ([], r)
        | [] => ([], [])
      match takeDigits r1 with
      | ([], _) => none
      | (ds, r2) => some (e :: (sgn ++ ds), r2)
    else some ([], cs)
  | [] => some ([], [])

/-- Lex a JSON number (optional sign, integer part without leading zeros,
optional fraction and exponent). -/
def lexNumber (cs : List Char) : Option (String × List Char) :=
  let (sign, cs1) : List Char × List Char :=
    match cs with
    | c :: r => if c == '-' then ([c], r) else ([], cs)
    | [] => ([], [])
  match takeDigits cs1 with
  | ([], _) => none
  | (ip, cs2) =>
    if 1 < ip.length && ip.headD ' ' == '0' then none
    else
      match lexFrac cs2 with
      | none => none
      | some (fp, cs3) =>
        match lexExp cs3 with
        | none => none
        | some (ep, cs4) => some (String.mk (sign ++ ip ++ fp ++ ep), cs4)

/-- Match a literal character sequence. -/
def matchLit : List Char → List Char → Option (List Char)
  | [], cs => some cs
  | _ :: _, [] => none
  | l :: ls, c :: r => if l == c then matchLit ls r else none

mutual

/-- Parse one JSON value after skipping leading whitespace. -/
def parseVal : Nat → List Char → Option (JVal × List Char)
  | 0, _ => none
  | fuel + 1, cs =>
    match jskipWs cs with
    | [] => none
    | c :: rest =>
      if c == quoteCh then
        match parseStrBody (rest.length + 1) rest with
        | none => none
        | some (s, r) => some (JVal.jstr s, r)
      else if c == lbraceCh then
        match jskipWs rest with
        | d :: r1 =>
          if d == rbraceCh then some (JVal.jobj [], r1)
          else
            match parseMembers fuel (d :: r1) with
            | none => none
            | some (ms, r2) => some (JVal.jobj ms, r2)
        | [] => none
      else if c == lbrackCh then
        match jskipWs rest with
        | d :: r1 =>
          if d == rbrackCh then some (JVal.jarr [], r1)
          else
            match parseElems fuel (d :: r1) with
            | none => none
            | some (xs, r2) => some (JVal.jarr xs, r2)
        | [] => none
      else if c == 't' then
        match matchLit ['r', 'u', 'e'] rest with
        | some r => some (JVal.jbool true, r)
        | none => none
      else if c == 'f' then
        match matchLit ['a', 'l', 's', 'e'] rest with
        | some r => some (JVal.jbool false, r)
        | none => none
      else if c == 'n' then
        match matchLit ['u', 'l', 'l'] rest with
        | some r => some (JVal.jnull, r)
        | none => none
      else
        match lexNumber (c :: rest) with
        | none => none
        | some (s, r) => some (JVal.jnum s, r)

/-- Parse comma-separated array elements up to the closing bracket. -/
def parseElems : Nat → List Char → Option (List JVal × List Char)
  | 0, _ => none
  | fuel + 1, cs =>
    match parseVal fuel cs with
    | none => none
    | some (v, r) =>
      match jskipWs r with
      | d :: r1 =>
        if d == ',' then
          match parseElems fuel r1 with
          | none => none
          | some (xs, r2) => some (v :: xs, r2)
        else if d == rbrackCh then some ([v], r1)
        else none
      | [] => none

/-- Parse comma-separated object members up to the closing brace. -/
def parseMembers : Nat → List Char → Option (List (String × JVal) × List Char)
  | 0, _ => none
  | fuel + 1, cs =>
    match jskipWs cs with
    | k :: r =>
      if k == quoteCh then
        match parseStrBody (r.length + 1) r with
        | none => none
        | some (key, r1) =>
          match jskipWs r1 with
          | c :: r2 =>
            if c == ':' then
              match parseVal fuel r2 with
              | none => none
              | some (v, r3) =>
                match jskipWs r3 with
                | d :: r4 =>
                  if d == ',' then
                    match parseMembers fuel r4 with
                    | none => none
                    | some (ms, r5) => some ((key, v) :: ms, r5)
                  else if d == rbraceCh then some ([(key, v)], r4)
                  else none
                | [] => none
            else none
          | [] => none
      else none
    | [] => none

end

/-- `json.loads`: parse a complete JSON document with nothing but whitespace
after it.  The fuel is generous: every recursive call either consumes input
or descends past a consumed structural character. -/
def jsonLoads (s : String) : Option JVal :=
  let cs := s.toList
  match parseVal (2 * cs.length + 2) cs with
  | some (v, rest) => if (jskipWs rest).isEmpty then some v else none
  | none => none

/-- A node of the minimum-viable-graph path (`MVGNode`). -/
structure MVGNode where
  name : String
  description : String
  is_axiom : Bool
  concept_id : Option String
deriving DecidableEq, Repr

/-- `MVGResult` from `mvg_service.py`. -/
structure MVGResult where
  target : String
  domain : String
  path : List MVGNode
  explanation : String
deriving DecidableEq, Repr

/-- The distinct failure modes of `MVGService.generate`: a backend or
transport exception propagating out of `llm.generate`, the `ValueError`
raised on a JSON parse failure, and (modelled coarsely) the
TypeError/KeyError paths for parsed data of unexpected shape. -/
inductive MVGError
  | backendFailure (msg : String)
  | validation (msg : String)
  | typeErr (msg : String)
deriving DecidableEq, Repr

/-- Python `dict.get` on parsed JSON object fields (last duplicate wins). -/
def pyGet (fields : List (String × JVal)) (k : String) : Option JVal :=
  (fields.reverse.find? (fun p => p.1 == k)).map (fun p => p.2)

/-- Strip a single markdown code fence, as done by the two anchored `re.sub`
calls: only when the trimmed text starts with three backticks, drop them plus
an optional `json` tag and newline, and drop a trailing fence together with
its optional preceding newline. -/
def stripCodeFence (t : String) : String :=
  if strStarts t "```" then
    let t1 := t.drop 3
    let t2 := if strStarts t1 "json" then t1.drop 4 else t1
    let t3 := if strStarts t2 "\n" then t2.drop 1 else t2
    if strEnds t3 "```" then
      let t4 := t3.dropRight 3
      if strEnds t4 "\n" then t4.dropRight 1 else t4
    else t3
  else t

/-- `MVGService._find_concept_by_name`: scan the domain's concepts for a
case-insensitive name match. -/
def findConceptByName (domainConcepts : List Concept) (n : String) : Option Concept :=
  domainConcepts.find? (fun c => pyLower c.name == pyLower n)

/-- Build one `MVGNode` from a parsed path item: `item["name"]` (KeyError if
missing), `item.get("description", "")`, `item.get("is_axiom", False)`, and
an optional link to an existing concept.  Items that are not objects carrying
a string name and bool-or-absent axiom flag take Python TypeError/KeyError
paths, modelled coarsely as `typeErr`. -/
def buildNode (domainConcepts : List Concept) (item : JVal) : Except MVGError MVGNode :=
  match item with
  | .jobj fs =>
    match pyGet fs "name" with
    | some (.jstr n) =>
      let desc := match pyGet fs "description" with
        | some (.jstr d) => d
        | _ => ""
      match (match pyGet fs "is_axiom" with
             | some (.jbool b) => some b
             | none => some false
             | some _ => none) with
      | some ax =>
        .ok { name := n, description := desc, is_axiom := ax,
              concept_id := (findConceptByName domainConcepts n).map (fun c => c.id) }
      | none => .error (.typeErr "is_axiom has unexpected shape")
    | some _ => .error (.typeErr "name is not a string")
    | none => .error (.typeErr "KeyError name")
  | _ => .error (.typeErr "path item is not an object")

/-- Fold `buildNode` over the path array, preserving order. -/
def buildNodes (domainConcepts : List Concept) : List JVal → Except MVGError (List MVGNode)
  | [] => .ok []
  | item :: rest =>
    match buildNode domainConcepts item with
    | .error e => .error e
    | .ok node =>
      match buildNodes domainConcepts rest with
      | .error e => .error e
      | .ok nodes => .ok (node :: nodes)

/-- `MVGService.generate(target, domain)` given the backend call's outcome:
a backend exception propagates as `backendFailure`; otherwise the response
text is trimmed, unfenced and parsed — a parse failure raises the
`ValueError` (`validation`); on success the path nodes are reconstructed and
the explanation is returned verbatim.  The domain's concepts (for read-only
name linking) are a parameter. -/
def mvgGenerate (domainConcepts : List Concept) (target domain : String)
    (llmResponse : Except String String) : Except MVGError MVGResult :=
  match llmResponse with
  | .error e => .error (.backendFailure e)
  | .ok rawText =>
    let text := stripCodeFence (pyStrip rawText)
    match jsonLoads text with
    | none => .error (.validation "Failed to parse LLM response as JSON")
    | some data =>
      match data with
      | .jobj fs =>
        match (pyGet fs "path").getD (.jarr []) with
        | .jarr items =>
          match buildNodes domainConcepts items with
          | .error e => .error e
          | .ok nodes =>
            let expl := match pyGet fs "explanation" with
              | some (.jstr s) => s
              | _ => ""
            .ok { target := target, domain := domain, path := nodes, explanation := expl }
        | _ => .error (.typeErr "path is not a list")
      | _ => .error (.typeErr "top-level JSON value is not an object")

/-- The concrete fenced backend output of the parsing scenario. -/
def fencedSetJson : String :=
  "```json\n\x7b\"path\":[\x7b\"name\":\"Set\",\"description\":\"d\",\"is_axiom\":true\x7d],\"explanation\":\"e\"\x7d\n```"

/-- The log of a backward pass outcome (empty when the pass aborted). -/
def bwdLogOf (r : Except String BwdState) : List BwdEvent :=
  match r with
  | .ok s => s.log
  | .error _ => []

/-- Fixture: a concept with the given identity, name, domain, complexity and
axiom flag, other fields empty. -/
def mkConcept (idv n dom : String) (lvl : Int) (ax : Bool) : Concept :=
  { id := idv, name := n, definition_md := "", domain := dom, subfield := "general",
    complexity_level := lvl, books := [], papers := [], articles := [],
    related_concepts := [], llm_summary := "", is_axiom := ax, is_verified := false }

/-- Fixture: an environment whose collaborators are inert (no extraction, a
fixed formatted definition, deterministic ids, identity shuffle). -/
def baseEnv : Env :=
  { shuffle := id
    relatedTerms := fun _ => []
    findPrereqs := fun _ _ => []
    canExtract := fun _ => false
    extract := fun _ _ _ => .ok none
    enrich := id
    formatDefinition := fun _ => .ok "D"
    genId := fun d sf n => d ++ "-" ++ sf ++ "-" ++ n }

/-- Fixture: a store with exact-match `get_by_name` and no failures (the test
suite's mock store). -/
def exactOps : StoreOps :=
  { lookup := findByNameExact
    createExc := fun _ => none
    addRequiresExc := fun _ _ => none
    incomplete := fun _ _ => [] }

/-- Fixture: a store with case-insensitive `get_by_name` (the CLI's in-memory
store) and no failures. -/
def ciOps : StoreOps :=
  { exactOps with lookup := findByNameCI }

/-- Fixture: a MATH axiom seed. -/
def axC1 : Concept := mkConcept "ax1" "Ax" "MATH" 0 true

/-- Fixture: an existing concept named in lowercase. -/
def lowSet : Concept := mkConcept "set1" "set" "MATH" 1 false

/-- Fixture: store holding the axiom and the lowercase concept. -/
def stC1 : Store := { concepts := [axC1, lowSet], requires := [] }

/-- Fixture: store holding only the axiom. -/
def stW1 : Store := { concepts := [axC1], requires := [] }

/-- Fixture: environment whose term mining yields the candidate `Set` from
the axiom seed. -/
def envC1 : Env :=
  { baseEnv with relatedTerms := fun c => if c.name == "Ax" then ["Set"] else [] }

/-- The concept the forward pass creates for the candidate `Set` under
`envC1` (complexity one above the axiom seed). -/
def cSetW : Concept :=
  { mkConcept "MATH-general-Set" "Set" "MATH" 1 false with definition_md := "D" }

/-- Fixture: a complex MATH concept for backward tracing. -/
def vsC3 : Concept := mkConcept "vs1" "VS" "MATH" 3 false

/-- Fixture: store holding only the complex concept. -/
def stC3 : Store := { concepts := [vsC3], requires := [] }

/-- Fixture: environment whose prerequisite mining yields `Fn` for the
complex concept. -/
def envC3 : Env :=
  { baseEnv with findPrereqs := fun c _ => if c.name == "VS" then ["Fn"] else [] }

/-- The prerequisite concept the backward pass creates for `Fn` under
`envC3` (complexity one below the dependent, floored at 1). -/
def cFnW : Concept :=
  { mkConcept "MATH-general-Fn" "Fn" "MATH" 2 false with definition_md := "D" }

/-- Fixture: an existing prerequisite concept for the linking path. -/
def setEx : Concept := mkConcept "set9" "Set" "MATH" 1 false

/-- Fixture: store with the complex concept and the existing prerequisite. -/
def stC6 : Store := { concepts := [vsC3, setEx], requires := [] }

/-- Fixture: environment whose prerequisite mining yields the existing
term `Set`. -/
def envC6 : Env :=
  { baseEnv with findPrereqs := fun c _ => if c.name == "VS" then ["Set"] else [] }

/-- Fixture: a store whose `add_requires` always raises. -/
def opsC6 : StoreOps :=
  { exactOps with addRequiresExc := fun _ _ => some "boom" }

/-- Fixture: environment with one failing and one succeeding prerequisite
creation for the complex concept. -/
def envC6b : Env :=
  { baseEnv with
    findPrereqs := fun c _ => if c.name == "VS" then ["Bad", "Fn"] else []
    formatDefinition := fun r => if r.name == "Bad" then .error "boom" else .ok "D" }

/-- Fixture: environment with one failing and one succeeding candidate for
the forward pass. -/
def envC7 : Env :=
  { baseEnv with
    relatedTerms := fun c => if c.name == "Ax" then ["Bad", "Good"] else []
    formatDefinition := fun r => if r.name == "Bad" then .error "boom" else .ok "D" }

/-- Fixture: a store holding 21 MATH axioms. -/
def st21 : Store :=
  { concepts := (List.range 21).map
      (fun i => mkConcept ("a" ++ toString i) ("A" ++ toString i) "MATH" 0 true)
    requires := [] }

/-- The candidate term a forward event is about (for created events, the
created concept carries the term as its name). -/
def fwdEventTerm : FwdEvent → String
  | .skippedExisting t => t
  | .created c _ => c.name
  | .createdNone t => t
  | .failed t _ => t

/-- The candidate term a backward event is about. -/
def bwdEventTerm : BwdEvent → String
  | .linkedExisting t _ => t
  | .created c _ => c.name
  | .createdNone t => t
  | .failed t _ => t

/-- Number of events the forward pass's `concepts_skipped` counter counts:
an already-existing term skipped, or a creation that returned nothing. -/
def fwdSkipCount : List FwdEvent → Nat
  | [] => 0
  | .skippedExisting _ :: rest => fwdSkipCount rest + 1
  | .createdNone _ :: rest => fwdSkipCount rest + 1
  | _ :: rest => fwdSkipCount rest

/-- Number of events the backward pass's `prerequisites_linked` counter
counts: an existing prerequisite linked, or a new one created and linked. -/
def bwdLinkCount : List BwdEvent → Nat
  | [] => 0
  | .linkedExisting _ _ :: rest => bwdLinkCount rest + 1
  | .created _ _ :: rest => bwdLinkCount rest + 1
  | _ :: rest => bwdLinkCount rest

/-- Fixture: a store whose `add_requires` raises exactly when the
prerequisite id is the one of the freshly created `Fn` concept, so only the
in-try linking of a new prerequisite can fail. -/
def opsC6c : StoreOps :=
  { exactOps with
    addRequiresExc := fun _ b => if b == "MATH-general-Fn" then some "boom" else none }

/-- Fixture: the store after the backward pass created `Fn` (before any
linking). -/
def stFnC6 : Store := { concepts := [vsC3, cFnW], requires := [] }

/-- Fixture: the initial backward loop state over `stC3`. -/
def bwdS0C6 : BwdState :=
  { store := stC3, added := 0, skipped := 0, linked := 0, errors := [], log := [] }

/-- Fixture: the backward loop state after the new-prerequisite
`add_requires` raised and was caught: the creation persisted, one formatted
error was recorded, nothing was counted as added. -/
def bwdResC6 : BwdState :=
  { store := stFnC6, added := 0, skipped := 0, linked := 0,
    errors := [bwdErrMsg "Fn" "boom"], log := [BwdEvent.failed "Fn" "boom"] }

/-- The forward loops only append to their accumulators: `sf` extends `s` by
ghost log `dlog` and store concepts `dcon`, with the error list and the added
counter tracking exactly the failed and created events. -/
structure FwdDelta (s sf : FwdState) (dlog : List FwdEvent) (dcon : List Concept) : Prop where
  log_eq : sf.log = s.log ++ dlog
  errors_eq : sf.errors = s.errors ++ (fwdFailedPairs dlog).map (fun q => fwdErrMsg q.1 q.2)
  added_eq : sf.added = s.added + (fwdCreatedPairs dlog).length
  skipped_eq : sf.skipped = s.skipped + fwdSkipCount dlog
  concepts_eq : sf.store.concepts = s.store.concepts ++ dcon

/-- Append structure of the backward loops, as for the forward ones. -/
structure BwdDelta (s sf : BwdState) (dlog : List BwdEvent) (dcon : List Concept) : Prop where
  log_eq : sf.log = s.log ++ dlog
  errors_eq : sf.errors = s.errors ++ (bwdFailedPairs dlog).map (fun q => bwdErrMsg q.1 q.2)
  added_eq : sf.added = s.added + (bwdCreatedPairs dlog).length
  linked_eq : sf.linked = s.linked + bwdLinkCount dlog
  concepts_eq : sf.store.concepts = s.store.concepts ++ dcon

/-- Master loop invariant for `Orchestrator.run`: the pass counters track the
trace length, `current` splits into the direction totals, the stored
direction is the alternation of the trace, and the trace chains from 0. -/
structure LoopInv (batch target : Nat) (s : OrchState) : Prop where
  chained : Chained batch target 0 s.trace s.current
  alt : alternates PassType.forward s.trace
  ptype_eq : s.passType = afterType PassType.forward s.trace.length
  passes_eq : s.forwardPasses + s.backwardPasses = s.trace.length
  totals_eq : s.current = s.forwardTotal + s.backwardTotal

/-- Fixture: the backward state after the existing prerequisite `Set` was
linked to the complex concept under the case-insensitive store: nothing
created, nothing skipped, one prerequisite linked. -/
def bwdResLinkW : BwdState :=
  { store := { concepts := [vsC3, setEx], requires := [("vs1", "set9")] },
    added := 0, skipped := 0, linked := 1, errors := [],
    log := [BwdEvent.linkedExisting "Set" setEx] }


-- DEFS-END

lemma PassType.flip_flip (p : PassType) : p.flip.flip = p := by
  cases p <;> rfl

lemma afterType_succ (p : PassType) (n : Nat) :
    afterType p (n + 1) = (afterType p n).flip := by
  rcases Nat.even_or_odd n with h | h
  · have h0 : n % 2 = 0 := Nat.even_iff.mp h
    have h1 : (n + 1) % 2 = 1 := by omega
    simp [afterType, h0, h1]
  · have h0 : n % 2 = 1 := Nat.odd_iff.mp h
    have h1 : (n + 1) % 2 = 0 := by omega
    simp [afterType, h0, h1, PassType.flip_flip]

lemma alternates_append_singleton (p : PassType) (tr : List PassRecord)
    (r : PassRecord) (halt : alternates p tr) (hr : r.ptype = afterType p tr.length) :
    alternates p (tr ++ [r]) := by
  induction tr generalizing p with
  | nil =>
    simpa [alternates, afterType] using hr
  | cons a rest ih =>
    obtain ⟨ha, hrest⟩ := halt
    refine ⟨ha, ih p.flip hrest ?_⟩
    have : afterType p (rest.length + 1) = (afterType p rest.length).flip := afterType_succ _ _
    have h2 : afterType p.flip rest.length = (afterType p rest.length).flip := by
      by_cases he : rest.length % 2 = 0 <;> simp [afterType, he]
    rw [h2, ← this]
    simpa [List.length_cons] using hr

lemma chained_append_singleton (batch target c c1 : Nat) (tr : List PassRecord)
    (r : PassRecord) (h : Chained batch target c tr c1)
    (hb : r.currentBefore = c1) (hr : r.requested = min batch (target - c1)) :
    Chained batch target c (tr ++ [r]) (c1 + r.added) := by
  induction h with
  | nil c =>
    exact .cons c r [] (c + r.added) hb hr (.nil _)
  | cons c a rest c1 hb1 hr1 htail ih =>
    exact .cons c a (rest ++ [r]) (c1 + r.added) hb1 hr1 (ih hb hr)

lemma loopInv_init (batch target : Nat) : LoopInv batch target initOrchState :=
  ⟨.nil 0, trivial, rfl, rfl, rfl⟩

lemma loopInv_step (eng : PassEngines) (batch target : Nat) (s : OrchState)
    (h : LoopInv batch target s) : LoopInv batch target (orchStep eng batch target s) := by
  obtain ⟨hc, ha, hp, hn, ht⟩ := h
  cases hpt : s.passType with
  | forward =>
    refine ⟨?_, ?_, ?_, ?_, ?_⟩ <;> simp only [orchStep, hpt]
    · exact chained_append_singleton _ _ _ _ _ _ hc rfl rfl
    · exact alternates_append_singleton _ _ _ ha (by rw [← hp, hpt])
    · rw [List.length_append, List.length_cons, List.length_nil, afterType_succ, ← hp, hpt]
      rfl
    · simp [← hn]; omega
    · simp [ht]; omega
  | backward =>
    refine ⟨?_, ?_, ?_, ?_, ?_⟩ <;> simp only [orchStep, hpt]
    · exact chained_append_singleton _ _ _ _ _ _ hc rfl rfl
    · exact alternates_append_singleton _ _ _ ha (by rw [← hp, hpt])
    · rw [List.length_append, List.length_cons, List.length_nil, afterType_succ, ← hp, hpt]
      rfl
    · simp [← hn]; omega
    · simp [ht]; omega

lemma loopInv_loop (eng : PassEngines) (batch target : Nat) (fuel : Nat)
    (s : OrchState) (h : LoopInv batch target s) :
    LoopInv batch target (orchLoop eng batch target fuel s) := by
  induction fuel generalizing s with
  | zero => exact h
  | succ fuel ih =>
    by_cases hlt : s.current < target
    · simpa [orchLoop, hlt] using ih _ (loopInv_step eng batch target s h)
    · simpa [orchLoop, hlt] using h

lemma orchLoop_trace_length (eng : PassEngines) (batch target fuel : Nat)
    (s : OrchState) :
    (orchLoop eng batch target fuel s).trace.length ≤ s.trace.length + fuel := by
  induction fuel generalizing s with
  | zero => simp [orchLoop]
  | succ fuel ih =>
    by_cases hlt : s.current < target
    · have := ih (orchStep eng batch target s)
      have hstep : (orchStep eng batch target s).trace.length = s.trace.length + 1 := by
        cases hpt : s.passType <;> simp [orchStep, hpt]
      simp only [orchLoop, hlt, if_true]
      omega
    · simp [orchLoop, hlt]

lemma orchLoop_exit (eng : PassEngines) (batch target fuel : Nat) (s : OrchState) :
    target ≤ (orchLoop eng batch target fuel s).current ∨
      (orchLoop eng batch target fuel s).trace.length = s.trace.length + fuel := by
  induction fuel generalizing s with
  | zero =>
    by_cases hlt : s.current < target
    · right; simp [orchLoop]
    · left; simpa [orchLoop] using Nat.le_of_not_lt hlt
  | succ fuel ih =>
    by_cases hlt : s.current < target
    · have hstep : (orchStep eng batch target s).trace.length = s.trace.length + 1 := by
        cases hpt : s.passType <;> simp [orchStep, hpt]
      rcases ih (orchStep eng batch target s) with h | h
      · left; simpa [orchLoop, hlt] using h
      · right
        simp only [orchLoop, hlt, if_true]
        omega
    · left
      simpa [orchLoop, hlt] using Nat.le_of_not_lt hlt

lemma orchLoop_trace_extend (eng : PassEngines) (batch target fuel : Nat) (s : OrchState) :
    ∃ tl, (orchLoop eng batch target fuel s).trace = s.trace ++ tl := by
  induction fuel generalizing s with
  | zero => exact ⟨[], by simp [orchLoop]⟩
  | succ fuel ih =>
    by_cases hlt : s.current < target
    · obtain ⟨tl, htl⟩ := ih (orchStep eng batch target s)
      have hstep : ∃ tl2, (orchStep eng batch target s).trace = s.trace ++ tl2 := by
        cases hpt : s.passType
        · exact ⟨[⟨PassType.forward, s.current, min batch (target - s.current),
            (eng.fwd s.forwardPasses (min batch (target - s.current))).concepts_added⟩],
            by simp [orchStep, hpt]⟩
        · exact ⟨[⟨PassType.backward, s.current, min batch (target - s.current),
            (eng.bwd s.backwardPasses (min batch (target - s.current))).concepts_added⟩],
            by simp [orchStep, hpt]⟩
      obtain ⟨tl2, htl2⟩ := hstep
      exact ⟨tl2 ++ tl, by
        simp only [orchLoop, hlt, if_true]
        rw [htl, htl2, List.append_assoc]⟩
    · exact ⟨[], by simp [orchLoop, hlt]⟩

/-- C2: for every target and every pair of pass engines — including engines
that always report zero added concepts — `Orchestrator.run` terminates: the
number of executed passes never exceeds `max_iterations`, and the loop stops
only by reaching the target or by running exactly `max_iterations`
iterations; the configured default cap is 100. -/
theorem orchestrator_run_terminates (cfg : OrchestratorConfig) (eng : PassEngines)
    (target : Nat) :
    (Orchestrator.run cfg eng target).total_passes ≤ cfg.max_iterations ∧
    (target ≤ (Orchestrator.run cfg eng target).total_concepts_added ∨
      (Orchestrator.run cfg eng target).total_passes = cfg.max_iterations) ∧
    OrchestratorConfig.defaults.max_iterations = 100 := by
  have hinv := loopInv_loop eng (batchSize target cfg.passFrac) target cfg.max_iterations
    initOrchState (loopInv_init _ _)
  have hlen := orchLoop_trace_length eng (batchSize target cfg.passFrac) target
    cfg.max_iterations initOrchState
  have hexit := orchLoop_exit eng (batchSize target cfg.passFrac) target
    cfg.max_iterations initOrchState
  have hpass := hinv.passes_eq
  refine ⟨?_, ?_, rfl⟩
  · simp only [Orchestrator.run]
    rw [hpass]
    simpa [initOrchState] using hlen
  · simp only [Orchestrator.run]
    rcases hexit with h | h
    · exact Or.inl h
    · right
      rw [hpass, h]
      simp [initOrchState]

/-- C4: in every orchestrator run the executed passes strictly alternate
direction starting with a forward pass, for every pair of engines and every
reported added count (the flip is unconditional). -/
theorem orchestrator_run_alternates (cfg : OrchestratorConfig) (eng : PassEngines)
    (target : Nat) :
    alternates PassType.forward (Orchestrator.run cfg eng target).trace := by
  have hinv := loopInv_loop eng (batchSize target cfg.passFrac) target cfg.max_iterations
    initOrchState (loopInv_init _ _)
  simpa [Orchestrator.run] using hinv.alt

/-- C5: the batch size is `max(1, int(target_terms * pass_ratio))` computed
once, every executed pass requests `min(batch_size, target - current)` at its
entry value of `current` (the `Chained` trace), and in the concrete scenario
`target_terms = 4`, `pass_ratio = 1/2` the batch size is 2 and the first pass
of any run is a forward pass requesting exactly 2. -/
theorem orchestrator_batch_requests (cfg : OrchestratorConfig) (eng : PassEngines)
    (target : Nat) :
    Chained (batchSize target cfg.passFrac) target 0
      (Orchestrator.run cfg eng target).trace
      (Orchestrator.run cfg eng target).total_concepts_added ∧
    batchSize 4 (1/2) = 2 ∧
    (∀ eng2 : PassEngines,
      ((Orchestrator.run { OrchestratorConfig.defaults with passFrac := 1/2 } eng2 4).trace.head?).map
          (fun r => (r.ptype, r.requested)) = some (PassType.forward, 2)) := by
  have hinv := loopInv_loop eng (batchSize target cfg.passFrac) target cfg.max_iterations
    initOrchState (loopInv_init _ _)
  have hb : batchSize 4 (1/2) = 2 := by
    norm_num [batchSize, pyTrunc]
    decide
  refine ⟨by simpa [Orchestrator.run] using hinv.chained, hb, ?_⟩
  intro eng2
  simp only [Orchestrator.run, hb]
  have h100 : ({ OrchestratorConfig.defaults with passFrac := 1/2 } :
      OrchestratorConfig).max_iterations = 100 := rfl
  rw [h100]
  have hstep1 : orchLoop eng2 2 4 100 initOrchState =
      orchLoop eng2 2 4 99 (orchStep eng2 2 4 initOrchState) := by
    show orchLoop eng2 2 4 (99 + 1) initOrchState = _
    simp [orchLoop, initOrchState]
  rw [hstep1]
  obtain ⟨tl, htl⟩ := orchLoop_trace_extend eng2 2 4 99 (orchStep eng2 2 4 initOrchState)
  rw [htl]
  have hs : (orchStep eng2 2 4 initOrchState).trace =
      [⟨PassType.forward, 0, 2, (eng2.fwd 0 2).concepts_added⟩] := by
    simp [orchStep, initOrchState]
  rw [hs]
  simp

/-- C10: every result returned by `Orchestrator.run` satisfies
`total_concepts_added = forward_concepts + backward_concepts` and
`total_passes = forward_passes + backward_passes`, all six counters being
non-negative (naturals in the embedding, counting increments from zero). -/
theorem generation_result_counters (cfg : OrchestratorConfig) (eng : PassEngines)
    (target : Nat) :
    (Orchestrator.run cfg eng target).total_concepts_added =
      (Orchestrator.run cfg eng target).forward_concepts +
        (Orchestrator.run cfg eng target).backward_concepts ∧
    (Orchestrator.run cfg eng target).total_passes =
      (Orchestrator.run cfg eng target).forward_passes +
        (Orchestrator.run cfg eng target).backward_passes ∧
    0 ≤ (Orchestrator.run cfg eng target).total_concepts_added ∧
    0 ≤ (Orchestrator.run cfg eng target).total_passes := by
  have hinv := loopInv_loop eng (batchSize target cfg.passFrac) target cfg.max_iterations
    initOrchState (loopInv_init _ _)
  exact ⟨by simpa [Orchestrator.run] using hinv.totals_eq,
    by simp [Orchestrator.run], Nat.zero_le _, Nat.zero_le _⟩

lemma fwdCreatedPairs_append (l1 l2 : List FwdEvent) :
    fwdCreatedPairs (l1 ++ l2) = fwdCreatedPairs l1 ++ fwdCreatedPairs l2 := by
  induction l1 with
  | nil => rfl
  | cons a rest ih => cases a <;> simp [fwdCreatedPairs, ih]

lemma fwdFailedPairs_append (l1 l2 : List FwdEvent) :
    fwdFailedPairs (l1 ++ l2) = fwdFailedPairs l1 ++ fwdFailedPairs l2 := by
  induction l1 with
  | nil => rfl
  | cons a rest ih => cases a <;> simp [fwdFailedPairs, ih]

lemma bwdCreatedPairs_append (l1 l2 : List BwdEvent) :
    bwdCreatedPairs (l1 ++ l2) = bwdCreatedPairs l1 ++ bwdCreatedPairs l2 := by
  induction l1 with
  | nil => rfl
  | cons a rest ih => cases a <;> simp [bwdCreatedPairs, ih]

lemma bwdFailedPairs_append (l1 l2 : List BwdEvent) :
    bwdFailedPairs (l1 ++ l2) = bwdFailedPairs l1 ++ bwdFailedPairs l2 := by
  induction l1 with
  | nil => rfl
  | cons a rest ih => cases a <;> simp [bwdFailedPairs, ih]

lemma fwdSkipCount_append (l1 l2 : List FwdEvent) :
    fwdSkipCount (l1 ++ l2) = fwdSkipCount l1 + fwdSkipCount l2 := by
  induction l1 with
  | nil => simp [fwdSkipCount]
  | cons a rest ih => cases a <;> simp [fwdSkipCount, ih] <;> omega

lemma bwdLinkCount_append (l1 l2 : List BwdEvent) :
    bwdLinkCount (l1 ++ l2) = bwdLinkCount l1 + bwdLinkCount l2 := by
  induction l1 with
  | nil => simp [bwdLinkCount]
  | cons a rest ih => cases a <;> simp [bwdLinkCount, ih] <;> omega

lemma findByNameCI_none_not_match {cs : List Concept} {t : String}
    (h : findByNameCI cs t = none) {c0 : Concept} (hc0 : c0 ∈ cs) :
    pyLower c0.name ≠ pyLower t := by
  intro he
  have hx := List.find?_eq_none.mp h c0 hc0
  simp only [beq_iff_eq] at hx
  exact hx he

lemma findByNameCI_some_match {cs : List Concept} {t : String} {ex : Concept}
    (h : findByNameCI cs t = some ex) : pyLower ex.name = pyLower t := by
  have hx := List.find?_some h
  simpa [beq_iff_eq] using hx

lemma addRequires_concepts (ops : StoreOps) (st : Store) (a b : String) :
    ((ops.addRequires st a b).1).concepts = st.concepts := by
  unfold StoreOps.addRequires
  cases ops.addRequiresExc a b <;> rfl

lemma linkPrereqs_concepts (ops : StoreOps) (cid : String) :
    ∀ (l : List String) (st : Store), ((linkPrereqs ops cid st l).1).concepts = st.concepts := by
  intro l
  induction l with
  | nil => intro st; rfl
  | cons n rest ih =>
    intro st
    cases hlk : ops.lookup st.concepts n with
    | none =>
      simp only [linkPrereqs, hlk]
      exact ih st
    | some p =>
      cases hexc : ops.addRequiresExc cid p.id with
      | some e => simp only [linkPrereqs, hlk, hexc]
      | none =>
        simp only [linkPrereqs, hlk, hexc]
        exact ih _

lemma afterCreate_spec (ops : StoreOps) (cid : String) (pid : Option String)
    (prereqNames : List String) (created : Concept) (st1 : Store) :
    ((afterCreate ops cid pid prereqNames created st1).1).concepts = st1.concepts ∧
    (∀ stf c, afterCreate ops cid pid prereqNames created st1 = (stf, Except.ok (some c)) →
      c = created) := by
  rcases hA : (match pid with
      | some p => ops.addRequires st1 cid p
      | none => (st1, Except.ok ())) with ⟨st2, r2⟩
  have hst2 : st2.concepts = st1.concepts := by
    cases pid with
    | none =>
      cases hA
      rfl
    | some p =>
      have hA2 : ops.addRequires st1 cid p = (st2, r2) := hA
      have h := addRequires_concepts ops st1 cid p
      rw [hA2] at h
      exact h
  cases r2 with
  | error e =>
    unfold afterCreate
    simp only [hA]
    exact ⟨hst2, by intro stf c h; simp at h⟩
  | ok u =>
    rcases hL : linkPrereqs ops cid st2 prereqNames with ⟨st3, r3⟩
    have hst3 : st3.concepts = st2.concepts := by
      have h := linkPrereqs_concepts ops cid prereqNames st2
      rw [hL] at h
      exact h
    cases r3 with
    | error e =>
      unfold afterCreate
      simp only [hA, hL]
      exact ⟨hst3.trans hst2, by intro stf c h; simp at h⟩
    | ok u2 =>
      unfold afterCreate
      simp only [hA, hL]
      refine ⟨hst3.trans hst2, ?_⟩
      intro stf c h
      simp only [Prod.mk.injEq, Except.ok.injEq, Option.some.injEq] at h
      exact h.2.symm

lemma extractAndCreateConcept_spec (env : Env) (ops : StoreOps)
    (term domain subfield : String) (pid : Option String) (base : Int) (st : Store) :
    (∃ tl, ((extractAndCreateConcept env ops term domain subfield pid base st).1).concepts
        = st.concepts ++ tl ∧ ∀ c ∈ tl, c.name = term ∧ c.complexity_level = base + 1) ∧
    (∀ st1 c, extractAndCreateConcept env ops term domain subfield pid base st
        = (st1, Except.ok (some c)) →
      c.name = term ∧ c.complexity_level = base + 1 ∧ st1.concepts = st.concepts ++ [c]) := by
  cases hx : (if env.canExtract term then env.extract term domain subfield
      else Except.ok none) with
  | error e =>
    unfold extractAndCreateConcept
    simp only [hx]
    exact ⟨⟨[], by simp, by simp⟩, by intro st1 c h; simp at h⟩
  | ok ext0 =>
    cases hfd : env.formatDefinition (rawOf (extractedOf env term domain subfield ext0)) with
    | error e =>
      unfold extractAndCreateConcept
      simp only [hx, hfd]
      exact ⟨⟨[], by simp, by simp⟩, by intro st1 c h; simp at h⟩
    | ok fd =>
      cases hcx : ops.createExc (conceptOf env term domain subfield (base + 1) fd
          (extractedOf env term domain subfield ext0)) with
      | some e =>
        unfold extractAndCreateConcept StoreOps.create
        simp only [hx, hfd, hcx]
        exact ⟨⟨[], by simp, by simp⟩, by intro st1 c h; simp at h⟩
      | none =>
        unfold extractAndCreateConcept StoreOps.create
        simp only [hx, hfd, hcx]
        have hac := afterCreate_spec ops
          (conceptOf env term domain subfield (base + 1) fd
            (extractedOf env term domain subfield ext0)).id pid
          (extractedOf env term domain subfield ext0).prerequisites
          (conceptOf env term domain subfield (base + 1) fd
            (extractedOf env term domain subfield ext0))
          { st with concepts := st.concepts ++ [conceptOf env term domain subfield (base + 1) fd
            (extractedOf env term domain subfield ext0)] }
        refine ⟨⟨[conceptOf env term domain subfield (base + 1) fd
            (extractedOf env term domain subfield ext0)], ?_, ?_⟩, ?_⟩
        · exact hac.1
        · intro c hc
          simp only [List.mem_singleton] at hc
          subst hc
          exact ⟨rfl, rfl⟩
        · intro st1 c h
          have hcc := hac.2 st1 c h
          have hcon : st1.concepts = st.concepts ++
              [conceptOf env term domain subfield (base + 1) fd
                (extractedOf env term domain subfield ext0)] := by
            have h1 := congrArg Prod.fst h
            simp only at h1
            rw [← h1]
            exact hac.1
          subst hcc
          exact ⟨rfl, rfl, hcon⟩

lemma createPrerequisite_spec (env : Env) (ops : StoreOps)
    (term domain subfield : String) (dep : Concept) (st : Store) :
    (∃ tl, ((createPrerequisite env ops term domain subfield dep st).1).concepts
        = st.concepts ++ tl ∧
        ∀ c ∈ tl, c.name = term ∧ c.complexity_level = max 1 (dep.complexity_level - 1)) ∧
    (∀ st1 c, createPrerequisite env ops term domain subfield dep st
        = (st1, Except.ok (some c)) →
      c.name = term ∧ c.complexity_level = max 1 (dep.complexity_level - 1) ∧
      st1.concepts = st.concepts ++ [c]) := by
  cases hx : (if env.canExtract term then env.extract term domain subfield
      else Except.ok none) with
  | error e =>
    unfold createPrerequisite
    simp only [hx]
    exact ⟨⟨[], by simp, by simp⟩, by intro st1 c h; simp at h⟩
  | ok ext0 =>
    cases hfd : env.formatDefinition (rawOf (extractedOf env term domain subfield ext0)) with
    | error e =>
      unfold createPrerequisite
      simp only [hx, hfd]
      exact ⟨⟨[], by simp, by simp⟩, by intro st1 c h; simp at h⟩
    | ok fd =>
      cases hcx : ops.createExc (conceptOf env term domain subfield
          (max 1 (dep.complexity_level - 1)) fd
          (extractedOf env term domain subfield ext0)) with
      | some e =>
        unfold createPrerequisite StoreOps.create
        simp only [hx, hfd, hcx]
        exact ⟨⟨[], by simp, by simp⟩, by intro st1 c h; simp at h⟩
      | none =>
        unfold createPrerequisite StoreOps.create
        simp only [hx, hfd, hcx]
        refine ⟨⟨[conceptOf env term domain subfield (max 1 (dep.complexity_level - 1)) fd
            (extractedOf env term domain subfield ext0)], rfl, ?_⟩, ?_⟩
        · intro c hc
          simp only [List.mem_singleton] at hc
          subst hc
          exact ⟨rfl, rfl⟩
        · intro st1 c h
          simp only [Prod.mk.injEq, Except.ok.injEq, Option.some.injEq] at h
          obtain ⟨h1, h2⟩ := h
          subst h2
          exact ⟨rfl, rfl, by rw [← h1]⟩

lemma fwdDeltaComp {s s1 s2 : FwdState} {d1 d2 : List FwdEvent}
    {c1 c2 : List Concept} (h1 : FwdDelta s s1 d1 c1) (h2 : FwdDelta s1 s2 d2 c2) :
    FwdDelta s s2 (d1 ++ d2) (c1 ++ c2) := by
  refine ⟨?_, ?_, ?_, ?_, ?_⟩
  · rw [h2.log_eq, h1.log_eq, List.append_assoc]
  · rw [h2.errors_eq, h1.errors_eq, fwdFailedPairs_append, List.map_append, List.append_assoc]
  · rw [h2.added_eq, h1.added_eq, fwdCreatedPairs_append, List.length_append]
    omega
  · rw [h2.skipped_eq, h1.skipped_eq, fwdSkipCount_append]
    omega
  · rw [h2.concepts_eq, h1.concepts_eq, List.append_assoc]

lemma bwdDeltaComp {s s1 s2 : BwdState} {d1 d2 : List BwdEvent}
    {c1 c2 : List Concept} (h1 : BwdDelta s s1 d1 c1) (h2 : BwdDelta s1 s2 d2 c2) :
    BwdDelta s s2 (d1 ++ d2) (c1 ++ c2) := by
  refine ⟨?_, ?_, ?_, ?_, ?_⟩
  · rw [h2.log_eq, h1.log_eq, List.append_assoc]
  · rw [h2.errors_eq, h1.errors_eq, bwdFailedPairs_append, List.map_append, List.append_assoc]
  · rw [h2.added_eq, h1.added_eq, bwdCreatedPairs_append, List.length_append]
    omega
  · rw [h2.linked_eq, h1.linked_eq, bwdLinkCount_append]
    omega
  · rw [h2.concepts_eq, h1.concepts_eq, List.append_assoc]

lemma fwdDeltaRefl (s : FwdState) : FwdDelta s s [] [] :=
  ⟨by simp, by simp [fwdFailedPairs], by simp [fwdCreatedPairs], by simp [fwdSkipCount],
    by simp⟩

lemma bwdDeltaRefl (s : BwdState) : BwdDelta s s [] [] :=
  ⟨by simp, by simp [bwdFailedPairs], by simp [bwdCreatedPairs], by simp [bwdLinkCount],
    by simp⟩
lemma fwdTerms_delta (env : Env) (ops : StoreOps) (target : Nat) (domain : String)
    (seed : Concept) :
    ∀ (terms : List String) (s : FwdState), ∃ dlog dcon,
      FwdDelta s (fwdTerms env ops target domain seed s terms) dlog dcon ∧
      (∀ p ∈ fwdCreatedPairs dlog,
        p.1.complexity_level = p.2.complexity_level + 1 ∧ p.2 = seed) ∧
      (∀ p ∈ fwdCreatedPairs dlog,
        p.1 ∈ (fwdTerms env ops target domain seed s terms).store.concepts) ∧
      (ops.lookup = findByNameCI → ∀ p ∈ fwdCreatedPairs dlog,
        ∀ c0 ∈ s.store.concepts, pyLower c0.name ≠ pyLower p.1.name) ∧
      (ops.lookup = findByNameCI → ∀ t,
        (∃ c0 ∈ s.store.concepts, pyLower c0.name = pyLower t) →
        ∀ ev ∈ dlog, fwdEventTerm ev = t → ev = FwdEvent.skippedExisting t) ∧
      (ops.lookup = findByNameCI →
        List.Pairwise (fun p q => pyLower p.1.name ≠ pyLower q.1.name)
          (fwdCreatedPairs dlog)) := by
  intro terms
  induction terms with
  | nil =>
    intro s
    refine ⟨[], [], ?_, ?_, ?_, ?_, ?_, ?_⟩
    · simpa [fwdTerms] using fwdDeltaRefl s
    · simp [fwdCreatedPairs]
    · simp [fwdCreatedPairs]
    · intro _ p hp
      simp [fwdCreatedPairs] at hp
    · intro _ t ht ev hev
      simp at hev
    · intro _
      exact List.Pairwise.nil
  | cons term rest ih =>
    intro s
    by_cases htgt : target ≤ s.added
    · have hres : fwdTerms env ops target domain seed s (term :: rest) = s := by
        simp [fwdTerms, htgt]
      refine ⟨[], [], ?_, ?_, ?_, ?_, ?_, ?_⟩
      · rw [hres]
        exact fwdDeltaRefl s
      · simp [fwdCreatedPairs]
      · simp [fwdCreatedPairs]
      · intro _ p hp
        simp [fwdCreatedPairs] at hp
      · intro _ t ht ev hev
        simp at hev
      · intro _
        exact List.Pairwise.nil
    · cases hlk : ops.lookup s.store.concepts term with
      | some ex =>
        have hres : fwdTerms env ops target domain seed s (term :: rest) =
            fwdTerms env ops target domain seed
              { s with skipped := s.skipped + 1,
                       log := s.log ++ [FwdEvent.skippedExisting term] } rest := by
          simp [fwdTerms, htgt, hlk]
        obtain ⟨dlog, dcon, hd, hcx, hin, hded, hskip, hpw⟩ := ih
          { s with skipped := s.skipped + 1,
                   log := s.log ++ [FwdEvent.skippedExisting term] }
        refine ⟨FwdEvent.skippedExisting term :: dlog, dcon, ?_, ?_, ?_, ?_, ?_, ?_⟩
        · rw [hres]
          refine ⟨?_, ?_, ?_, ?_, ?_⟩
          · rw [hd.log_eq]
            simp
          · rw [hd.errors_eq]
            simp [fwdFailedPairs]
          · rw [hd.added_eq]
            simp [fwdCreatedPairs]
          · rw [hd.skipped_eq]
            simp [fwdSkipCount]
            omega
          · rw [hd.concepts_eq]
        · intro p hp
          simp only [fwdCreatedPairs] at hp
          exact hcx p hp
        · intro p hp
          simp only [fwdCreatedPairs] at hp
          rw [hres]
          exact hin p hp
        · intro hop p hp
          simp only [fwdCreatedPairs] at hp
          exact hded hop p hp
        · intro hop t ht ev hev hterm
          rcases List.mem_cons.mp hev with hev | hev
          · subst hev
            simp only [fwdEventTerm] at hterm
            rw [hterm]
          · exact hskip hop t ht ev hev hterm
        · intro hop
          simp only [fwdCreatedPairs]
          exact hpw hop
      | none =>
        rcases hec : extractAndCreateConcept env ops term domain seed.subfield
            (some seed.id) seed.complexity_level s.store with ⟨st1, r1⟩
        have hspec := extractAndCreateConcept_spec env ops term domain seed.subfield
          (some seed.id) seed.complexity_level s.store
        obtain ⟨⟨tl, htl, htlp⟩, hok⟩ := hspec
        rw [hec] at htl
        simp only at htl
        have hcontra : ops.lookup = findByNameCI → ∀ t,
            (∃ c0 ∈ s.store.concepts, pyLower c0.name = pyLower t) →
            t = term → False := by
          intro hop t ht hteq
          obtain ⟨c0, hc0, hmt⟩ := ht
          rw [hop] at hlk
          exact findByNameCI_none_not_match hlk hc0 (by rw [hmt, hteq])
        cases r1 with
        | ok oc =>
          cases oc with
          | some c =>
            obtain ⟨hcn, hcl, hst1⟩ := hok st1 c hec
            have hres : fwdTerms env ops target domain seed s (term :: rest) =
                fwdTerms env ops target domain seed
                  { s with store := st1, added := s.added + 1,
                           log := s.log ++ [FwdEvent.created c seed] } rest := by
              simp [fwdTerms, htgt, hlk, hec]
            obtain ⟨dlog, dcon, hd, hcx, hin, hded, hskip, hpw⟩ := ih
              { s with store := st1, added := s.added + 1,
                       log := s.log ++ [FwdEvent.created c seed] }
            have hcmem : c ∈ st1.concepts := by
              rw [hst1]
              exact List.mem_append_right _ (List.mem_singleton.mpr rfl)
            refine ⟨FwdEvent.created c seed :: dlog, c :: dcon, ?_, ?_, ?_, ?_, ?_, ?_⟩
            · rw [hres]
              refine ⟨?_, ?_, ?_, ?_, ?_⟩
              · rw [hd.log_eq]
                simp
              · rw [hd.errors_eq]
                simp [fwdFailedPairs]
              · rw [hd.added_eq]
                simp [fwdCreatedPairs]
                omega
              · rw [hd.skipped_eq]
                simp [fwdSkipCount]
              · rw [hd.concepts_eq]
                simp only
                rw [hst1, List.append_assoc]
                rfl
            · intro p hp
              simp only [fwdCreatedPairs, List.mem_cons] at hp
              rcases hp with hp | hp
              · subst hp
                exact ⟨by rw [hcl], rfl⟩
              · exact hcx p hp
            · intro p hp
              rw [hres]
              simp only [fwdCreatedPairs, List.mem_cons] at hp
              rcases hp with hp | hp
              · subst hp
                rw [hd.concepts_eq]
                exact List.mem_append_left _ hcmem
              · exact hin p hp
            · intro hop p hp
              simp only [fwdCreatedPairs, List.mem_cons] at hp
              rcases hp with hp | hp
              · subst hp
                intro c0 hc0 hcontra2
                rw [hop] at hlk
                refine findByNameCI_none_not_match hlk hc0 ?_
                rw [hcontra2]
                simp only
                rw [hcn]
              · intro c0 hc0
                refine hded hop p hp c0 ?_
                simp only [hst1]
                exact List.mem_append_left _ hc0
            · intro hop t ht ev hev hterm
              rcases List.mem_cons.mp hev with hev | hev
              · exfalso
                subst hev
                simp only [fwdEventTerm] at hterm
                exact hcontra hop t ht (by rw [← hterm, hcn])
              · refine hskip hop t ?_ ev hev hterm
                obtain ⟨c0, hc0, hmt⟩ := ht
                exact ⟨c0, by simp only [hst1]; exact List.mem_append_left _ hc0, hmt⟩
            · intro hop
              simp only [fwdCreatedPairs]
              rw [List.pairwise_cons]
              constructor
              · intro q hq
                exact hded hop q hq c hcmem
              · exact hpw hop
          | none =>
            have hres : fwdTerms env ops target domain seed s (term :: rest) =
                fwdTerms env ops target domain seed
                  { s with store := st1, skipped := s.skipped + 1,
                           log := s.log ++ [FwdEvent.createdNone term] } rest := by
              simp [fwdTerms, htgt, hlk, hec]
            obtain ⟨dlog, dcon, hd, hcx, hin, hded, hskip, hpw⟩ := ih
              { s with store := st1, skipped := s.skipped + 1,
                       log := s.log ++ [FwdEvent.createdNone term] }
            refine ⟨FwdEvent.createdNone term :: dlog, tl ++ dcon, ?_, ?_, ?_, ?_, ?_, ?_⟩
            · rw [hres]
              refine ⟨?_, ?_, ?_, ?_, ?_⟩
              · rw [hd.log_eq]
                simp
              · rw [hd.errors_eq]
                simp [fwdFailedPairs]
              · rw [hd.added_eq]
                simp [fwdCreatedPairs]
              · rw [hd.skipped_eq]
                simp [fwdSkipCount]
                omega
              · rw [hd.concepts_eq]
                simp only
                rw [htl, List.append_assoc]
            · intro p hp
              simp only [fwdCreatedPairs] at hp
              exact hcx p hp
            · intro p hp
              simp only [fwdCreatedPairs] at hp
              rw [hres]
              exact hin p hp
            · intro hop p hp
              simp only [fwdCreatedPairs] at hp
              intro c0 hc0
              refine hded hop p hp c0 ?_
              simp only [htl]
              exact List.mem_append_left _ hc0
            · intro hop t ht ev hev hterm
              rcases List.mem_cons.mp hev with hev | hev
              · exfalso
                subst hev
                simp only [fwdEventTerm] at hterm
                exact hcontra hop t ht hterm.symm
              · refine hskip hop t ?_ ev hev hterm
                obtain ⟨c0, hc0, hmt⟩ := ht
                exact ⟨c0, by simp only [htl]; exact List.mem_append_left _ hc0, hmt⟩
            · intro hop
              simp only [fwdCreatedPairs]
              exact hpw hop
        | error e =>
          have hres : fwdTerms env ops target domain seed s (term :: rest) =
              fwdTerms env ops target domain seed
                { s with store := st1, errors := s.errors ++ [fwdErrMsg term e],
                         log := s.log ++ [FwdEvent.failed term e] } rest := by
            simp [fwdTerms, htgt, hlk, hec]
          obtain ⟨dlog, dcon, hd, hcx, hin, hded, hskip, hpw⟩ := ih
            { s with store := st1, errors := s.errors ++ [fwdErrMsg term e],
                     log := s.log ++ [FwdEvent.failed term e] }
          refine ⟨FwdEvent.failed term e :: dlog, tl ++ dcon, ?_, ?_, ?_, ?_, ?_, ?_⟩
          · rw [hres]
            refine ⟨?_, ?_, ?_, ?_, ?_⟩
            · rw [hd.log_eq]
              simp
            · rw [hd.errors_eq]
              simp [fwdFailedPairs]
            · rw [hd.added_eq]
              simp [fwdCreatedPairs]
            · rw [hd.skipped_eq]
              simp [fwdSkipCount]
            · rw [hd.concepts_eq]
              simp only
              rw [htl, List.append_assoc]
          · intro p hp
            simp only [fwdCreatedPairs] at hp
            exact hcx p hp
          · intro p hp
            simp only [fwdCreatedPairs] at hp
            rw [hres]
            exact hin p hp
          · intro hop p hp
            simp only [fwdCreatedPairs] at hp
            intro c0 hc0
            refine hded hop p hp c0 ?_
            simp only [htl]
            exact List.mem_append_left _ hc0
          · intro hop t ht ev hev hterm
            rcases List.mem_cons.mp hev with hev | hev
            · exfalso
              subst hev
              simp only [fwdEventTerm] at hterm
              exact hcontra hop t ht hterm.symm
            · refine hskip hop t ?_ ev hev hterm
              obtain ⟨c0, hc0, hmt⟩ := ht
              exact ⟨c0, by simp only [htl]; exact List.mem_append_left _ hc0, hmt⟩
          · intro hop
            simp only [fwdCreatedPairs]
            exact hpw hop
lemma fwdSeeds_delta (env : Env) (ops : StoreOps) (target : Nat) (domain : String) :
    ∀ (seeds : List Concept) (s : FwdState), ∃ dlog dcon,
      FwdDelta s (fwdSeeds env ops target domain s seeds) dlog dcon ∧
      (∀ p ∈ fwdCreatedPairs dlog, p.1.complexity_level = p.2.complexity_level + 1) ∧
      (∀ p ∈ fwdCreatedPairs dlog,
        p.1 ∈ (fwdSeeds env ops target domain s seeds).store.concepts) ∧
      (ops.lookup = findByNameCI → ∀ p ∈ fwdCreatedPairs dlog,
        ∀ c0 ∈ s.store.concepts, pyLower c0.name ≠ pyLower p.1.name) ∧
      (ops.lookup = findByNameCI → ∀ t,
        (∃ c0 ∈ s.store.concepts, pyLower c0.name = pyLower t) →
        ∀ ev ∈ dlog, fwdEventTerm ev = t → ev = FwdEvent.skippedExisting t) ∧
      (ops.lookup = findByNameCI →
        List.Pairwise (fun p q => pyLower p.1.name ≠ pyLower q.1.name)
          (fwdCreatedPairs dlog)) := by
  intro seeds
  induction seeds with
  | nil =>
    intro s
    refine ⟨[], [], by simpa [fwdSeeds] using fwdDeltaRefl s,
      by simp [fwdCreatedPairs], by simp [fwdCreatedPairs],
      by intro _ p hp; simp [fwdCreatedPairs] at hp,
      by intro _ t ht ev hev; simp at hev,
      by intro _; exact List.Pairwise.nil⟩
  | cons seed rest ih =>
    intro s
    by_cases htgt : target ≤ s.added
    · have hres : fwdSeeds env ops target domain s (seed :: rest) = s := by
        simp [fwdSeeds, htgt]
      refine ⟨[], [], by rw [hres]; exact fwdDeltaRefl s,
        by simp [fwdCreatedPairs], by simp [fwdCreatedPairs],
        by intro _ p hp; simp [fwdCreatedPairs] at hp,
        by intro _ t ht ev hev; simp at hev,
        by intro _; exact List.Pairwise.nil⟩
    · have hres : fwdSeeds env ops target domain s (seed :: rest) =
          fwdSeeds env ops target domain
            (fwdTerms env ops target domain seed s (env.relatedTerms seed)) rest := by
        simp [fwdSeeds, htgt]
      obtain ⟨d1, c1, hd1, hcx1, hin1, hded1, hskip1, hpw1⟩ :=
        fwdTerms_delta env ops target domain seed (env.relatedTerms seed) s
      obtain ⟨d2, c2, hd2, hcx2, hin2, hded2, hskip2, hpw2⟩ :=
        ih (fwdTerms env ops target domain seed s (env.relatedTerms seed))
      refine ⟨d1 ++ d2, c1 ++ c2, ?_, ?_, ?_, ?_, ?_, ?_⟩
      · rw [hres]
        exact fwdDeltaComp hd1 hd2
      · intro p hp
        rw [fwdCreatedPairs_append, List.mem_append] at hp
        rcases hp with hp | hp
        · exact (hcx1 p hp).1
        · exact hcx2 p hp
      · intro p hp
        rw [fwdCreatedPairs_append, List.mem_append] at hp
        rw [hres]
        rcases hp with hp | hp
        · rw [hd2.concepts_eq]
          exact List.mem_append_left _ (hin1 p hp)
        · exact hin2 p hp
      · intro hop p hp
        rw [fwdCreatedPairs_append, List.mem_append] at hp
        rcases hp with hp | hp
        · exact hded1 hop p hp
        · intro c0 hc0
          refine hded2 hop p hp c0 ?_
          rw [hd1.concepts_eq]
          exact List.mem_append_left _ hc0
      · intro hop t ht ev hev hterm
        rw [List.mem_append] at hev
        rcases hev with hev | hev
        · exact hskip1 hop t ht ev hev hterm
        · refine hskip2 hop t ?_ ev hev hterm
          obtain ⟨c0, hc0, hmt⟩ := ht
          refine ⟨c0, ?_, hmt⟩
          rw [hd1.concepts_eq]
          exact List.mem_append_left _ hc0
      · intro hop
        rw [fwdCreatedPairs_append]
        rw [List.pairwise_append]
        refine ⟨hpw1 hop, hpw2 hop, ?_⟩
        intro p hp q hq
        exact hded2 hop q hq p.1 (hin1 p hp)

lemma fwdDomains_delta (env : Env) (ops : StoreOps) (target : Nat) (maxC : Int) :
    ∀ (domains : List String) (s : FwdState), ∃ dlog dcon,
      FwdDelta s (fwdDomains env ops target maxC s domains) dlog dcon ∧
      (∀ p ∈ fwdCreatedPairs dlog, p.1.complexity_level = p.2.complexity_level + 1) ∧
      (∀ p ∈ fwdCreatedPairs dlog,
        p.1 ∈ (fwdDomains env ops target maxC s domains).store.concepts) ∧
      (ops.lookup = findByNameCI → ∀ p ∈ fwdCreatedPairs dlog,
        ∀ c0 ∈ s.store.concepts, pyLower c0.name ≠ pyLower p.1.name) ∧
      (ops.lookup = findByNameCI → ∀ t,
        (∃ c0 ∈ s.store.concepts, pyLower c0.name = pyLower t) →
        ∀ ev ∈ dlog, fwdEventTerm ev = t → ev = FwdEvent.skippedExisting t) ∧
      (ops.lookup = findByNameCI →
        List.Pairwise (fun p q => pyLower p.1.name ≠ pyLower q.1.name)
          (fwdCreatedPairs dlog)) := by
  intro domains
  induction domains with
  | nil =>
    intro s
    refine ⟨[], [], by simpa [fwdDomains] using fwdDeltaRefl s,
      by simp [fwdCreatedPairs], by simp [fwdCreatedPairs],
      by intro _ p hp; simp [fwdCreatedPairs] at hp,
      by intro _ t ht ev hev; simp at hev,
      by intro _; exact List.Pairwise.nil⟩
  | cons domain rest ih =>
    intro s
    by_cases htgt : target ≤ s.added
    · have hres : fwdDomains env ops target maxC s (domain :: rest) = s := by
        simp [fwdDomains, htgt]
      refine ⟨[], [], by rw [hres]; exact fwdDeltaRefl s,
        by simp [fwdCreatedPairs], by simp [fwdCreatedPairs],
        by intro _ p hp; simp [fwdCreatedPairs] at hp,
        by intro _ t ht ev hev; simp at hev,
        by intro _; exact List.Pairwise.nil⟩
    · have hres : fwdDomains env ops target maxC s (domain :: rest) =
          fwdDomains env ops target maxC
            (fwdSeeds env ops target domain s (getSeedConcepts env s.store domain maxC)) rest := by
        simp [fwdDomains, htgt]
      obtain ⟨d1, c1, hd1, hcx1, hin1, hded1, hskip1, hpw1⟩ :=
        fwdSeeds_delta env ops target domain (getSeedConcepts env s.store domain maxC) s
      obtain ⟨d2, c2, hd2, hcx2, hin2, hded2, hskip2, hpw2⟩ :=
        ih (fwdSeeds env ops target domain s (getSeedConcepts env s.store domain maxC))
      refine ⟨d1 ++ d2, c1 ++ c2, ?_, ?_, ?_, ?_, ?_, ?_⟩
      · rw [hres]
        exact fwdDeltaComp hd1 hd2
      · intro p hp
        rw [fwdCreatedPairs_append, List.mem_append] at hp
        rcases hp with hp | hp
        · exact hcx1 p hp
        · exact hcx2 p hp
      · intro p hp
        rw [fwdCreatedPairs_append, List.mem_append] at hp
        rw [hres]
        rcases hp with hp | hp
        · rw [hd2.concepts_eq]
          exact List.mem_append_left _ (hin1 p hp)
        · exact hin2 p hp
      · intro hop p hp
        rw [fwdCreatedPairs_append, List.mem_append] at hp
        rcases hp with hp | hp
        · exact hded1 hop p hp
        · intro c0 hc0
          refine hded2 hop p hp c0 ?_
          rw [hd1.concepts_eq]
          exact List.mem_append_left _ hc0
      · intro hop t ht ev hev hterm
        rw [List.mem_append] at hev
        rcases hev with hev | hev
        · exact hskip1 hop t ht ev hev hterm
        · refine hskip2 hop t ?_ ev hev hterm
          obtain ⟨c0, hc0, hmt⟩ := ht
          refine ⟨c0, ?_, hmt⟩
          rw [hd1.concepts_eq]
          exact List.mem_append_left _ hc0
      · intro hop
        rw [fwdCreatedPairs_append]
        rw [List.pairwise_append]
        refine ⟨hpw1 hop, hpw2 hop, ?_⟩
        intro p hp q hq
        exact hded2 hop q hq p.1 (hin1 p hp)

lemma forwardExecute_delta (env : Env) (ops : StoreOps) (domains : List String)
    (target : Nat) (maxC : Int) (st : Store) :
    ∃ dcon,
      (forwardExecute env ops domains target maxC st).errors =
        (fwdFailedPairs (forwardExecute env ops domains target maxC st).log).map
          (fun q => fwdErrMsg q.1 q.2) ∧
      (forwardExecute env ops domains target maxC st).added =
        (fwdCreatedPairs (forwardExecute env ops domains target maxC st).log).length ∧
      (forwardExecute env ops domains target maxC st).skipped =
        fwdSkipCount (forwardExecute env ops domains target maxC st).log ∧
      (forwardExecute env ops domains target maxC st).store.concepts = st.concepts ++ dcon ∧
      (∀ p ∈ fwdCreatedPairs (forwardExecute env ops domains target maxC st).log,
        p.1.complexity_level = p.2.complexity_level + 1) ∧
      (ops.lookup = findByNameCI →
        ∀ p ∈ fwdCreatedPairs (forwardExecute env ops domains target maxC st).log,
        ∀ c0 ∈ st.concepts, pyLower c0.name ≠ pyLower p.1.name) ∧
      (ops.lookup = findByNameCI → ∀ t,
        (∃ c0 ∈ st.concepts, pyLower c0.name = pyLower t) →
        ∀ ev ∈ (forwardExecute env ops domains target maxC st).log,
        fwdEventTerm ev = t → ev = FwdEvent.skippedExisting t) ∧
      (ops.lookup = findByNameCI →
        List.Pairwise (fun p q => pyLower p.1.name ≠ pyLower q.1.name)
          (fwdCreatedPairs (forwardExecute env ops domains target maxC st).log)) := by
  obtain ⟨dlog, dcon, hd, hcx, hin, hded, hskip, hpw⟩ := fwdDomains_delta env ops target maxC domains
    { store := st, added := 0, skipped := 0, errors := [], log := [] }
  have hlog : (forwardExecute env ops domains target maxC st).log = dlog := by
    have := hd.log_eq
    simpa [forwardExecute] using this
  refine ⟨dcon, ?_, ?_, ?_, ?_, ?_, ?_, ?_, ?_⟩
  · have := hd.errors_eq
    simp only [forwardExecute] at hlog ⊢
    rw [hlog]
    simpa using this
  · have := hd.added_eq
    simp only [forwardExecute] at hlog ⊢
    rw [hlog]
    simpa using this
  · have := hd.skipped_eq
    simp only [forwardExecute] at hlog ⊢
    rw [hlog]
    simpa using this
  · have := hd.concepts_eq
    simpa [forwardExecute] using this
  · simp only [forwardExecute] at hlog ⊢
    rw [hlog]
    exact hcx
  · intro hop
    simp only [forwardExecute] at hlog ⊢
    rw [hlog]
    exact hded hop
  · intro hop t ht
    simp only [forwardExecute] at hlog ⊢
    rw [hlog]
    exact hskip hop t ht
  · intro hop
    simp only [forwardExecute] at hlog ⊢
    rw [hlog]
    exact hpw hop
lemma bwdTerms_delta (env : Env) (ops : StoreOps) (target : Nat) (domain : String)
    (concept : Concept) :
    ∀ (terms : List String) (s s1 : BwdState),
      bwdTerms env ops target domain concept s terms = Except.ok s1 →
      ∃ dlog dcon, BwdDelta s s1 dlog dcon ∧
        (∀ p ∈ bwdCreatedPairs dlog,
          p.1.complexity_level = max 1 (p.2.complexity_level - 1) ∧ p.2 = concept) ∧
        (∀ p ∈ bwdCreatedPairs dlog, p.1 ∈ s1.store.concepts) ∧
        (ops.lookup = findByNameCI → ∀ p ∈ bwdCreatedPairs dlog,
          ∀ c0 ∈ s.store.concepts, pyLower c0.name ≠ pyLower p.1.name) ∧
        (ops.lookup = findByNameCI → ∀ t,
          (∃ c0 ∈ s.store.concepts, pyLower c0.name = pyLower t) →
          ∀ ev ∈ dlog, bwdEventTerm ev = t →
          ∃ ex, ev = BwdEvent.linkedExisting t ex ∧ pyLower ex.name = pyLower t) ∧
        (ops.lookup = findByNameCI →
          List.Pairwise (fun p q => pyLower p.1.name ≠ pyLower q.1.name)
            (bwdCreatedPairs dlog)) := by
  intro terms
  induction terms with
  | nil =>
    intro s s1 h
    simp only [bwdTerms, Except.ok.injEq] at h
    subst h
    exact ⟨[], [], bwdDeltaRefl s, by simp [bwdCreatedPairs], by simp [bwdCreatedPairs],
      by intro _ p hp; simp [bwdCreatedPairs] at hp,
      by intro _ t ht ev hev; simp at hev,
      by intro _; exact List.Pairwise.nil⟩
  | cons term rest ih =>
    intro s s1 h
    by_cases htgt : target ≤ s.added
    · simp only [bwdTerms, htgt, if_true, Except.ok.injEq] at h
      subst h
      exact ⟨[], [], bwdDeltaRefl s, by simp [bwdCreatedPairs], by simp [bwdCreatedPairs],
        by intro _ p hp; simp [bwdCreatedPairs] at hp,
        by intro _ t ht ev hev; simp at hev,
        by intro _; exact List.Pairwise.nil⟩
    · cases hlk : ops.lookup s.store.concepts term with
      | some ex =>
        cases hexc : ops.addRequiresExc concept.id ex.id with
        | some e =>
          have : bwdTerms env ops target domain concept s (term :: rest) =
              Except.error e := by
            simp [bwdTerms, htgt, hlk, hexc]
          rw [this] at h
          simp at h
        | none =>
          have hres : bwdTerms env ops target domain concept s (term :: rest) =
              bwdTerms env ops target domain concept
                { s with
                  store := { s.store with requires := s.store.requires ++ [(concept.id, ex.id)] },
                  linked := s.linked + 1,
                  log := s.log ++ [BwdEvent.linkedExisting term ex] } rest := by
            simp [bwdTerms, htgt, hlk, hexc]
          rw [hres] at h
          obtain ⟨dlog, dcon, hd, hcx, hin, hded, hlev, hpw⟩ := ih _ s1 h
          refine ⟨BwdEvent.linkedExisting term ex :: dlog, dcon, ?_, ?_, ?_, ?_, ?_, ?_⟩
          · refine ⟨?_, ?_, ?_, ?_, ?_⟩
            · rw [hd.log_eq]
              simp
            · rw [hd.errors_eq]
              simp [bwdFailedPairs]
            · rw [hd.added_eq]
              simp [bwdCreatedPairs]
            · rw [hd.linked_eq]
              simp [bwdLinkCount]
              omega
            · rw [hd.concepts_eq]
          · intro p hp
            simp only [bwdCreatedPairs] at hp
            exact hcx p hp
          · intro p hp
            simp only [bwdCreatedPairs] at hp
            exact hin p hp
          · intro hop p hp
            simp only [bwdCreatedPairs] at hp
            exact hded hop p hp
          · intro hop t ht ev hev hterm
            rcases List.mem_cons.mp hev with hev | hev
            · subst hev
              simp only [bwdEventTerm] at hterm
              subst hterm
              refine ⟨ex, rfl, ?_⟩
              rw [hop] at hlk
              exact findByNameCI_some_match hlk
            · exact hlev hop t ht ev hev hterm
          · intro hop
            simp only [bwdCreatedPairs]
            exact hpw hop
      | none =>
        rcases hec : createPrerequisite env ops term domain concept.subfield concept s.store
          with ⟨st1, r1⟩
        have hspec := createPrerequisite_spec env ops term domain concept.subfield
          concept s.store
        obtain ⟨⟨tl, htl, htlp⟩, hok⟩ := hspec
        rw [hec] at htl
        simp only at htl
        have hcontra : ops.lookup = findByNameCI → ∀ t,
            (∃ c0 ∈ s.store.concepts, pyLower c0.name = pyLower t) →
            t = term → False := by
          intro hop t ht hteq
          obtain ⟨c0, hc0, hmt⟩ := ht
          rw [hop] at hlk
          exact findByNameCI_none_not_match hlk hc0 (by rw [hmt, hteq])
        cases r1 with
        | ok oc =>
          cases oc with
          | some p0 =>
            obtain ⟨hpn, hpl, hst1⟩ := hok st1 p0 hec
            cases hexc : ops.addRequiresExc concept.id p0.id with
            | some e =>
              have hres : bwdTerms env ops target domain concept s (term :: rest) =
                  bwdTerms env ops target domain concept
                    { s with store := st1, errors := s.errors ++ [bwdErrMsg term e],
                             log := s.log ++ [BwdEvent.failed term e] } rest := by
                simp [bwdTerms, htgt, hlk, hec, hexc]
              rw [hres] at h
              obtain ⟨dlog, dcon, hd, hcx, hin, hded, hlev, hpw⟩ := ih _ s1 h
              refine ⟨BwdEvent.failed term e :: dlog, tl ++ dcon, ?_, ?_, ?_, ?_, ?_, ?_⟩
              · refine ⟨?_, ?_, ?_, ?_, ?_⟩
                · rw [hd.log_eq]
                  simp
                · rw [hd.errors_eq]
                  simp [bwdFailedPairs]
                · rw [hd.added_eq]
                  simp [bwdCreatedPairs]
                · rw [hd.linked_eq]
                  simp [bwdLinkCount]
                · rw [hd.concepts_eq]
                  simp only
                  rw [htl, List.append_assoc]
              · intro p hp
                simp only [bwdCreatedPairs] at hp
                exact hcx p hp
              · intro p hp
                simp only [bwdCreatedPairs] at hp
                exact hin p hp
              · intro hop p hp
                simp only [bwdCreatedPairs] at hp
                intro c0 hc0
                refine hded hop p hp c0 ?_
                simp only [htl]
                exact List.mem_append_left _ hc0
              · intro hop t ht ev hev hterm
                rcases List.mem_cons.mp hev with hev | hev
                · exfalso
                  subst hev
                  simp only [bwdEventTerm] at hterm
                  exact hcontra hop t ht hterm.symm
                · refine hlev hop t ?_ ev hev hterm
                  obtain ⟨c0, hc0, hmt⟩ := ht
                  exact ⟨c0, by simp only [htl]; exact List.mem_append_left _ hc0, hmt⟩
              · intro hop
                simp only [bwdCreatedPairs]
                exact hpw hop
            | none =>
              have hres : bwdTerms env ops target domain concept s (term :: rest) =
                  bwdTerms env ops target domain concept
                    { s with
                      store := { st1 with requires := st1.requires ++ [(concept.id, p0.id)] },
                      added := s.added + 1, linked := s.linked + 1,
                      log := s.log ++ [BwdEvent.created p0 concept] } rest := by
                simp [bwdTerms, htgt, hlk, hec, hexc]
              rw [hres] at h
              obtain ⟨dlog, dcon, hd, hcx, hin, hded, hlev, hpw⟩ := ih _ s1 h
              have hpmem : p0 ∈ st1.concepts := by
                rw [hst1]
                exact List.mem_append_right _ (List.mem_singleton.mpr rfl)
              refine ⟨BwdEvent.created p0 concept :: dlog, p0 :: dcon, ?_, ?_, ?_, ?_, ?_, ?_⟩
              · refine ⟨?_, ?_, ?_, ?_, ?_⟩
                · rw [hd.log_eq]
                  simp
                · rw [hd.errors_eq]
                  simp [bwdFailedPairs]
                · rw [hd.added_eq]
                  simp [bwdCreatedPairs]
                  omega
                · rw [hd.linked_eq]
                  simp [bwdLinkCount]
                  omega
                · rw [hd.concepts_eq]
                  simp only
                  rw [hst1, List.append_assoc]
                  rfl
              · intro p hp
                simp only [bwdCreatedPairs, List.mem_cons] at hp
                rcases hp with hp | hp
                · subst hp
                  exact ⟨by rw [hpl], rfl⟩
                · exact hcx p hp
              · intro p hp
                simp only [bwdCreatedPairs, List.mem_cons] at hp
                rcases hp with hp | hp
                · subst hp
                  rw [hd.concepts_eq]
                  exact List.mem_append_left _ hpmem
                · exact hin p hp
              · intro hop p hp
                simp only [bwdCreatedPairs, List.mem_cons] at hp
                rcases hp with hp | hp
                · subst hp
                  intro c0 hc0 hcontra2
                  rw [hop] at hlk
                  refine findByNameCI_none_not_match hlk hc0 ?_
                  rw [hcontra2]
                  simp only
                  rw [hpn]
                · intro c0 hc0
                  refine hded hop p hp c0 ?_
                  simp only [hst1]
                  exact List.mem_append_left _ hc0
              · intro hop t ht ev hev hterm
                rcases List.mem_cons.mp hev with hev | hev
                · exfalso
                  subst hev
                  simp only [bwdEventTerm] at hterm
                  exact hcontra hop t ht (by rw [← hterm, hpn])
                · refine hlev hop t ?_ ev hev hterm
                  obtain ⟨c0, hc0, hmt⟩ := ht
                  exact ⟨c0, by simp only [hst1]; exact List.mem_append_left _ hc0, hmt⟩
              · intro hop
                simp only [bwdCreatedPairs]
                rw [List.pairwise_cons]
                constructor
                · intro q hq
                  exact hded hop q hq p0 hpmem
                · exact hpw hop
          | none =>
            have hres : bwdTerms env ops target domain concept s (term :: rest) =
                bwdTerms env ops target domain concept
                  { s with store := st1, skipped := s.skipped + 1,
                           log := s.log ++ [BwdEvent.createdNone term] } rest := by
              simp [bwdTerms, htgt, hlk, hec]
            rw [hres] at h
            obtain ⟨dlog, dcon, hd, hcx, hin, hded, hlev, hpw⟩ := ih _ s1 h
            refine ⟨BwdEvent.createdNone term :: dlog, tl ++ dcon, ?_, ?_, ?_, ?_, ?_, ?_⟩
            · refine ⟨?_, ?_, ?_, ?_, ?_⟩
              · rw [hd.log_eq]
                simp
              · rw [hd.errors_eq]
                simp [bwdFailedPairs]
              · rw [hd.added_eq]
                simp [bwdCreatedPairs]
              · rw [hd.linked_eq]
                simp [bwdLinkCount]
              · rw [hd.concepts_eq]
                simp only
                rw [htl, List.append_assoc]
            · intro p hp
              simp only [bwdCreatedPairs] at hp
              exact hcx p hp
            · intro p hp
              simp only [bwdCreatedPairs] at hp
              exact hin p hp
            · intro hop p hp
              simp only [bwdCreatedPairs] at hp
              intro c0 hc0
              refine hded hop p hp c0 ?_
              simp only [htl]
              exact List.mem_append_left _ hc0
            · intro hop t ht ev hev hterm
              rcases List.mem_cons.mp hev with hev | hev
              · exfalso
                subst hev
                simp only [bwdEventTerm] at hterm
                exact hcontra hop t ht hterm.symm
              · refine hlev hop t ?_ ev hev hterm
                obtain ⟨c0, hc0, hmt⟩ := ht
                exact ⟨c0, by simp only [htl]; exact List.mem_append_left _ hc0, hmt⟩
            · intro hop
              simp only [bwdCreatedPairs]
              exact hpw hop
        | error e =>
          have hres : bwdTerms env ops target domain concept s (term :: rest) =
              bwdTerms env ops target domain concept
                { s with store := st1, errors := s.errors ++ [bwdErrMsg term e],
                         log := s.log ++ [BwdEvent.failed term e] } rest := by
            simp [bwdTerms, htgt, hlk, hec]
          rw [hres] at h
          obtain ⟨dlog, dcon, hd, hcx, hin, hded, hlev, hpw⟩ := ih _ s1 h
          refine ⟨BwdEvent.failed term e :: dlog, tl ++ dcon, ?_, ?_, ?_, ?_, ?_, ?_⟩
          · refine ⟨?_, ?_, ?_, ?_, ?_⟩
            · rw [hd.log_eq]
              simp
            · rw [hd.errors_eq]
              simp [bwdFailedPairs]
            · rw [hd.added_eq]
              simp [bwdCreatedPairs]
            · rw [hd.linked_eq]
              simp [bwdLinkCount]
            · rw [hd.concepts_eq]
              simp only
              rw [htl, List.append_assoc]
          · intro p hp
            simp only [bwdCreatedPairs] at hp
            exact hcx p hp
          · intro p hp
            simp only [bwdCreatedPairs] at hp
            exact hin p hp
          · intro hop p hp
            simp only [bwdCreatedPairs] at hp
            intro c0 hc0
            refine hded hop p hp c0 ?_
            simp only [htl]
            exact List.mem_append_left _ hc0
          · intro hop t ht ev hev hterm
            rcases List.mem_cons.mp hev with hev | hev
            · exfalso
              subst hev
              simp only [bwdEventTerm] at hterm
              exact hcontra hop t ht hterm.symm
            · refine hlev hop t ?_ ev hev hterm
              obtain ⟨c0, hc0, hmt⟩ := ht
              exact ⟨c0, by simp only [htl]; exact List.mem_append_left _ hc0, hmt⟩
          · intro hop
            simp only [bwdCreatedPairs]
            exact hpw hop
lemma bwdConcepts_delta (env : Env) (ops : StoreOps) (target : Nat) (domain : String) :
    ∀ (cs : List Concept) (s s1 : BwdState),
      bwdConcepts env ops target domain s cs = Except.ok s1 →
      ∃ dlog dcon, BwdDelta s s1 dlog dcon ∧
        (∀ p ∈ bwdCreatedPairs dlog, p.1.complexity_level = max 1 (p.2.complexity_level - 1)) ∧
        (∀ p ∈ bwdCreatedPairs dlog, p.1 ∈ s1.store.concepts) ∧
        (ops.lookup = findByNameCI → ∀ p ∈ bwdCreatedPairs dlog,
          ∀ c0 ∈ s.store.concepts, pyLower c0.name ≠ pyLower p.1.name) ∧
        (ops.lookup = findByNameCI → ∀ t,
          (∃ c0 ∈ s.store.concepts, pyLower c0.name = pyLower t) →
          ∀ ev ∈ dlog, bwdEventTerm ev = t →
          ∃ ex, ev = BwdEvent.linkedExisting t ex ∧ pyLower ex.name = pyLower t) ∧
        (ops.lookup = findByNameCI →
          List.Pairwise (fun p q => pyLower p.1.name ≠ pyLower q.1.name)
            (bwdCreatedPairs dlog)) := by
  intro cs
  induction cs with
  | nil =>
    intro s s1 h
    simp only [bwdConcepts, Except.ok.injEq] at h
    subst h
    exact ⟨[], [], bwdDeltaRefl s, by simp [bwdCreatedPairs], by simp [bwdCreatedPairs],
      by intro _ p hp; simp [bwdCreatedPairs] at hp,
      by intro _ t ht ev hev; simp at hev,
      by intro _; exact List.Pairwise.nil⟩
  | cons c rest ih =>
    intro s s1 h
    by_cases htgt : target ≤ s.added
    · simp only [bwdConcepts, htgt, if_true, Except.ok.injEq] at h
      subst h
      exact ⟨[], [], bwdDeltaRefl s, by simp [bwdCreatedPairs], by simp [bwdCreatedPairs],
        by intro _ p hp; simp [bwdCreatedPairs] at hp,
        by intro _ t ht ev hev; simp at hev,
        by intro _; exact List.Pairwise.nil⟩
    · cases hbt : bwdTerms env ops target domain c s (env.findPrereqs c domain) with
      | error e =>
        have : bwdConcepts env ops target domain s (c :: rest) = Except.error e := by
          simp [bwdConcepts, htgt, hbt]
        rw [this] at h
        simp at h
      | ok smid =>
        have hres : bwdConcepts env ops target domain s (c :: rest) =
            bwdConcepts env ops target domain smid rest := by
          simp [bwdConcepts, htgt, hbt]
        rw [hres] at h
        obtain ⟨d1, c1, hd1, hcx1, hin1, hded1, hlev1, hpw1⟩ :=
          bwdTerms_delta env ops target domain c _ s smid hbt
        obtain ⟨d2, c2, hd2, hcx2, hin2, hded2, hlev2, hpw2⟩ := ih smid s1 h
        refine ⟨d1 ++ d2, c1 ++ c2, bwdDeltaComp hd1 hd2, ?_, ?_, ?_, ?_, ?_⟩
        · intro p hp
          rw [bwdCreatedPairs_append, List.mem_append] at hp
          rcases hp with hp | hp
          · exact (hcx1 p hp).1
          · exact hcx2 p hp
        · intro p hp
          rw [bwdCreatedPairs_append, List.mem_append] at hp
          rcases hp with hp | hp
          · rw [hd2.concepts_eq]
            exact List.mem_append_left _ (hin1 p hp)
          · exact hin2 p hp
        · intro hop p hp
          rw [bwdCreatedPairs_append, List.mem_append] at hp
          rcases hp with hp | hp
          · exact hded1 hop p hp
          · intro c0 hc0
            refine hded2 hop p hp c0 ?_
            rw [hd1.concepts_eq]
            exact List.mem_append_left _ hc0
        · intro hop t ht ev hev hterm
          rw [List.mem_append] at hev
          rcases hev with hev | hev
          · exact hlev1 hop t ht ev hev hterm
          · refine hlev2 hop t ?_ ev hev hterm
            obtain ⟨c0, hc0, hmt⟩ := ht
            refine ⟨c0, ?_, hmt⟩
            rw [hd1.concepts_eq]
            exact List.mem_append_left _ hc0
        · intro hop
          rw [bwdCreatedPairs_append]
          rw [List.pairwise_append]
          refine ⟨hpw1 hop, hpw2 hop, ?_⟩
          intro p hp q hq
          exact hded2 hop q hq p.1 (hin1 p hp)

lemma bwdDomains_delta (env : Env) (ops : StoreOps) (target : Nat) (minC : Int) :
    ∀ (domains : List String) (s s1 : BwdState),
      bwdDomains env ops target minC s domains = Except.ok s1 →
      ∃ dlog dcon, BwdDelta s s1 dlog dcon ∧
        (∀ p ∈ bwdCreatedPairs dlog, p.1.complexity_level = max 1 (p.2.complexity_level - 1)) ∧
        (∀ p ∈ bwdCreatedPairs dlog, p.1 ∈ s1.store.concepts) ∧
        (ops.lookup = findByNameCI → ∀ p ∈ bwdCreatedPairs dlog,
          ∀ c0 ∈ s.store.concepts, pyLower c0.name ≠ pyLower p.1.name) ∧
        (ops.lookup = findByNameCI → ∀ t,
          (∃ c0 ∈ s.store.concepts, pyLower c0.name = pyLower t) →
          ∀ ev ∈ dlog, bwdEventTerm ev = t →
          ∃ ex, ev = BwdEvent.linkedExisting t ex ∧ pyLower ex.name = pyLower t) ∧
        (ops.lookup = findByNameCI →
          List.Pairwise (fun p q => pyLower p.1.name ≠ pyLower q.1.name)
            (bwdCreatedPairs dlog)) := by
  intro domains
  induction domains with
  | nil =>
    intro s s1 h
    simp only [bwdDomains, Except.ok.injEq] at h
    subst h
    exact ⟨[], [], bwdDeltaRefl s, by simp [bwdCreatedPairs], by simp [bwdCreatedPairs],
      by intro _ p hp; simp [bwdCreatedPairs] at hp,
      by intro _ t ht ev hev; simp at hev,
      by intro _; exact List.Pairwise.nil⟩
  | cons domain rest ih =>
    intro s s1 h
    by_cases htgt : target ≤ s.added
    · simp only [bwdDomains, htgt, if_true, Except.ok.injEq] at h
      subst h
      exact ⟨[], [], bwdDeltaRefl s, by simp [bwdCreatedPairs], by simp [bwdCreatedPairs],
        by intro _ p hp; simp [bwdCreatedPairs] at hp,
        by intro _ t ht ev hev; simp at hev,
        by intro _; exact List.Pairwise.nil⟩
    · cases hbc : bwdConcepts env ops target domain s
          (getComplexConcepts env ops s.store domain minC) with
      | error e =>
        have : bwdDomains env ops target minC s (domain :: rest) = Except.error e := by
          simp [bwdDomains, htgt, hbc]
        rw [this] at h
        simp at h
      | ok smid =>
        have hres : bwdDomains env ops target minC s (domain :: rest) =
            bwdDomains env ops target minC smid rest := by
          simp [bwdDomains, htgt, hbc]
        rw [hres] at h
        obtain ⟨d1, c1, hd1, hcx1, hin1, hded1, hlev1, hpw1⟩ :=
          bwdConcepts_delta env ops target domain _ s smid hbc
        obtain ⟨d2, c2, hd2, hcx2, hin2, hded2, hlev2, hpw2⟩ := ih smid s1 h
        refine ⟨d1 ++ d2, c1 ++ c2, bwdDeltaComp hd1 hd2, ?_, ?_, ?_, ?_, ?_⟩
        · intro p hp
          rw [bwdCreatedPairs_append, List.mem_append] at hp
          rcases hp with hp | hp
          · exact hcx1 p hp
          · exact hcx2 p hp
        · intro p hp
          rw [bwdCreatedPairs_append, List.mem_append] at hp
          rcases hp with hp | hp
          · rw [hd2.concepts_eq]
            exact List.mem_append_left _ (hin1 p hp)
          · exact hin2 p hp
        · intro hop p hp
          rw [bwdCreatedPairs_append, List.mem_append] at hp
          rcases hp with hp | hp
          · exact hded1 hop p hp
          · intro c0 hc0
            refine hded2 hop p hp c0 ?_
            rw [hd1.concepts_eq]
            exact List.mem_append_left _ hc0
        · intro hop t ht ev hev hterm
          rw [List.mem_append] at hev
          rcases hev with hev | hev
          · exact hlev1 hop t ht ev hev hterm
          · refine hlev2 hop t ?_ ev hev hterm
            obtain ⟨c0, hc0, hmt⟩ := ht
            refine ⟨c0, ?_, hmt⟩
            rw [hd1.concepts_eq]
            exact List.mem_append_left _ hc0
        · intro hop
          rw [bwdCreatedPairs_append]
          rw [List.pairwise_append]
          refine ⟨hpw1 hop, hpw2 hop, ?_⟩
          intro p hp q hq
          exact hded2 hop q hq p.1 (hin1 p hp)

lemma backwardExecute_delta (env : Env) (ops : StoreOps) (domains : List String)
    (target : Nat) (minC : Int) (st : Store) (s1 : BwdState)
    (h : backwardExecute env ops domains target minC st = Except.ok s1) :
    ∃ dcon,
      s1.errors = (bwdFailedPairs s1.log).map (fun q => bwdErrMsg q.1 q.2) ∧
      s1.added = (bwdCreatedPairs s1.log).length ∧
      s1.linked = bwdLinkCount s1.log ∧
      s1.store.concepts = st.concepts ++ dcon ∧
      (∀ p ∈ bwdCreatedPairs s1.log,
        p.1.complexity_level = max 1 (p.2.complexity_level - 1)) ∧
      (ops.lookup = findByNameCI → ∀ p ∈ bwdCreatedPairs s1.log,
        ∀ c0 ∈ st.concepts, pyLower c0.name ≠ pyLower p.1.name) ∧
      (ops.lookup = findByNameCI → ∀ t,
        (∃ c0 ∈ st.concepts, pyLower c0.name = pyLower t) →
        ∀ ev ∈ s1.log, bwdEventTerm ev = t →
        ∃ ex, ev = BwdEvent.linkedExisting t ex ∧ pyLower ex.name = pyLower t) ∧
      (ops.lookup = findByNameCI →
        List.Pairwise (fun p q => pyLower p.1.name ≠ pyLower q.1.name)
          (bwdCreatedPairs s1.log)) := by
  obtain ⟨dlog, dcon, hd, hcx, hin, hded, hlev, hpw⟩ := bwdDomains_delta env ops target minC domains
    { store := st, added := 0, skipped := 0, linked := 0, errors := [], log := [] } s1 h
  have hlog : s1.log = dlog := by simpa using hd.log_eq
  refine ⟨dcon, ?_, ?_, ?_, ?_, ?_, ?_, ?_, ?_⟩
  · rw [hlog]
    simpa using hd.errors_eq
  · rw [hlog]
    simpa using hd.added_eq
  · rw [hlog]
    simpa using hd.linked_eq
  · simpa using hd.concepts_eq
  · rw [hlog]
    exact hcx
  · intro hop
    rw [hlog]
    exact hded hop
  · intro hop t ht
    rw [hlog]
    exact hlev hop t ht
  · intro hop
    rw [hlog]
    exact hpw hop

lemma bwdTerms_error_source (env : Env) (ops : StoreOps) (target : Nat)
    (domain : String) (concept : Concept) :
    ∀ (terms : List String) (s : BwdState) (e : String),
      bwdTerms env ops target domain concept s terms = Except.error e →
      ∃ a b, ops.addRequiresExc a b = some e := by
  intro terms
  induction terms with
  | nil =>
    intro s e h
    simp [bwdTerms] at h
  | cons term rest ih =>
    intro s e h
    by_cases htgt : target ≤ s.added
    · simp [bwdTerms, htgt] at h
    · cases hlk : ops.lookup s.store.concepts term with
      | some ex =>
        cases hexc : ops.addRequiresExc concept.id ex.id with
        | some e0 =>
          have : bwdTerms env ops target domain concept s (term :: rest) =
              Except.error e0 := by
            simp [bwdTerms, htgt, hlk, hexc]
          rw [this] at h
          simp only [Except.error.injEq] at h
          exact ⟨concept.id, ex.id, by rw [hexc, h]⟩
        | none =>
          have hres : bwdTerms env ops target domain concept s (term :: rest) =
              bwdTerms env ops target domain concept
                { s with
                  store := { s.store with requires := s.store.requires ++ [(concept.id, ex.id)] },
                  linked := s.linked + 1,
                  log := s.log ++ [BwdEvent.linkedExisting term ex] } rest := by
            simp [bwdTerms, htgt, hlk, hexc]
          rw [hres] at h
          exact ih _ e h
      | none =>
        rcases hec : createPrerequisite env ops term domain concept.subfield concept s.store
          with ⟨st1, r1⟩
        cases r1 with
        | ok oc =>
          cases oc with
          | some p0 =>
            cases hexc : ops.addRequiresExc concept.id p0.id with
            | some e0 =>
              have hres : bwdTerms env ops target domain concept s (term :: rest) =
                  bwdTerms env ops target domain concept
                    { s with store := st1, errors := s.errors ++ [bwdErrMsg term e0],
                             log := s.log ++ [BwdEvent.failed term e0] } rest := by
                simp [bwdTerms, htgt, hlk, hec, hexc]
              rw [hres] at h
              exact ih _ e h
            | none =>
              have hres : bwdTerms env ops target domain concept s (term :: rest) =
                  bwdTerms env ops target domain concept
                    { s with
                      store := { st1 with requires := st1.requires ++ [(concept.id, p0.id)] },
                      added := s.added + 1, linked := s.linked + 1,
                      log := s.log ++ [BwdEvent.created p0 concept] } rest := by
                simp [bwdTerms, htgt, hlk, hec, hexc]
              rw [hres] at h
              exact ih _ e h
          | none =>
            have hres : bwdTerms env ops target domain concept s (term :: rest) =
                bwdTerms env ops target domain concept
                  { s with store := st1, skipped := s.skipped + 1,
                           log := s.log ++ [BwdEvent.createdNone term] } rest := by
              simp [bwdTerms, htgt, hlk, hec]
            rw [hres] at h
            exact ih _ e h
        | error e1 =>
          have hres : bwdTerms env ops target domain concept s (term :: rest) =
              bwdTerms env ops target domain concept
                { s with store := st1, errors := s.errors ++ [bwdErrMsg term e1],
                         log := s.log ++ [BwdEvent.failed term e1] } rest := by
            simp [bwdTerms, htgt, hlk, hec]
          rw [hres] at h
          exact ih _ e h

lemma bwdConcepts_error_source (env : Env) (ops : StoreOps) (target : Nat)
    (domain : String) :
    ∀ (cs : List Concept) (s : BwdState) (e : String),
      bwdConcepts env ops target domain s cs = Except.error e →
      ∃ a b, ops.addRequiresExc a b = some e := by
  intro cs
  induction cs with
  | nil =>
    intro s e h
    simp [bwdConcepts] at h
  | cons c rest ih =>
    intro s e h
    by_cases htgt : target ≤ s.added
    · simp [bwdConcepts, htgt] at h
    · cases hbt : bwdTerms env ops target domain c s (env.findPrereqs c domain) with
      | error e0 =>
        have : bwdConcepts env ops target domain s (c :: rest) = Except.error e0 := by
          simp [bwdConcepts, htgt, hbt]
        rw [this] at h
        simp only [Except.error.injEq] at h
        subst h
        exact bwdTerms_error_source env ops target domain c _ s e0 hbt
      | ok smid =>
        have hres : bwdConcepts env ops target domain s (c :: rest) =
            bwdConcepts env ops target domain smid rest := by
          simp [bwdConcepts, htgt, hbt]
        rw [hres] at h
        exact ih smid e h

lemma bwdDomains_error_source (env : Env) (ops : StoreOps) (target : Nat)
    (minC : Int) :
    ∀ (domains : List String) (s : BwdState) (e : String),
      bwdDomains env ops target minC s domains = Except.error e →
      ∃ a b, ops.addRequiresExc a b = some e := by
  intro domains
  induction domains with
  | nil =>
    intro s e h
    simp [bwdDomains] at h
  | cons domain rest ih =>
    intro s e h
    by_cases htgt : target ≤ s.added
    · simp [bwdDomains, htgt] at h
    · cases hbc : bwdConcepts env ops target domain s
          (getComplexConcepts env ops s.store domain minC) with
      | error e0 =>
        have : bwdDomains env ops target minC s (domain :: rest) = Except.error e0 := by
          simp [bwdDomains, htgt, hbc]
        rw [this] at h
        simp only [Except.error.injEq] at h
        subst h
        exact bwdConcepts_error_source env ops target domain _ s e0 hbc
      | ok smid =>
        have hres : bwdDomains env ops target minC s (domain :: rest) =
            bwdDomains env ops target minC smid rest := by
          simp [bwdDomains, htgt, hbc]
        rw [hres] at h
        exact ih smid e h
lemma strLeads_append (l r : List Char) : strLeads l (l ++ r) = true := by
  induction l with
  | nil => rfl
  | cons a as ih => simp [strLeads, ih]

lemma toList_append (a b : String) : (a ++ b).toList = a.toList ++ b.toList := rfl

lemma strHas_of_parts (pre pat suf : String) :
    strHas (pre ++ pat ++ suf) pat = true := by
  unfold strHas
  rw [List.any_eq_true]
  refine ⟨pre.toList.length, ?_, ?_⟩
  · rw [List.mem_range, toList_append, toList_append, List.length_append, List.length_append]
    omega
  · have h1 : (pre ++ pat ++ suf).toList = pre.toList ++ (pat.toList ++ suf.toList) := by
      rw [toList_append, toList_append, List.append_assoc]
    rw [h1, List.drop_left]
    exact strLeads_append _ _

/-- C3: every concept created by the forward pass from a seed S is assigned
`complexity_level = S.complexity_level + 1`, and every concept created by the
backward pass for a dependent D is assigned
`complexity_level = max(1, D.complexity_level - 1)`. -/
theorem pass_complexity_levels (env : Env) (ops : StoreOps) (domains : List String)
    (target : Nat) (maxC minC : Int) (st : Store) :
    (∀ p ∈ fwdCreatedPairs (forwardExecute env ops domains target maxC st).log,
      p.1.complexity_level = p.2.complexity_level + 1) ∧
    (∀ p ∈ bwdCreatedPairs (bwdLogOf (backwardExecute env ops domains target minC st)),
      p.1.complexity_level = max 1 (p.2.complexity_level - 1)) := by
  constructor
  · obtain ⟨dcon, -, -, -, -, hcx, -, -, -⟩ := forwardExecute_delta env ops domains target maxC st
    exact hcx
  · cases hbe : backwardExecute env ops domains target minC st with
    | error e =>
      intro p hp
      simp [bwdLogOf, bwdCreatedPairs] at hp
    | ok s1 =>
      obtain ⟨dcon, -, -, -, -, hcx, -, -, -⟩ :=
        backwardExecute_delta env ops domains target minC st s1 hbe
      simpa [bwdLogOf] using hcx

/-- Witness for C3 at concrete inputs: the forward pass creates `Set` at
complexity 1 from the level-0 axiom and the backward pass creates `Fn` at
complexity 2 below the level-3 dependent. -/
theorem pass_complexity_levels_witness :
    cSetW.complexity_level = axC1.complexity_level + 1 ∧
    cFnW.complexity_level = max 1 (vsC3.complexity_level - 1) := by
  constructor
  · refine (pass_complexity_levels envC1 exactOps ["MATH"] 1 3 2 stW1).1 (cSetW, axC1) ?_
    rw [show fwdCreatedPairs (forwardExecute envC1 exactOps ["MATH"] 1 3 stW1).log
      = [(cSetW, axC1)] from rfl]
    exact List.mem_singleton.mpr rfl
  · refine (pass_complexity_levels envC3 exactOps ["MATH"] 1 3 2 stC3).2 (cFnW, vsC3) ?_
    rw [show bwdCreatedPairs (bwdLogOf (backwardExecute envC3 exactOps ["MATH"] 1 2 stC3))
      = [(cFnW, vsC3)] from rfl]
    exact List.mem_singleton.mpr rfl

/-- C7 (amended): every exception raised during a candidate term's
extraction-creation-linking sequence in the forward pass is caught and the
pass continues: the pass always returns, its error list is exactly one
formatted message per failed candidate, each message containing the term (but
not, in general, the domain — see the counterexample), and `concepts_added`
counts only the successfully created concepts. -/
theorem forward_error_isolation (env : Env) (ops : StoreOps) (domains : List String)
    (target : Nat) (maxC : Int) (st : Store) :
    (forwardExecute env ops domains target maxC st).errors =
      (fwdFailedPairs (forwardExecute env ops domains target maxC st).log).map
        (fun q => fwdErrMsg q.1 q.2) ∧
    (forwardExecute env ops domains target maxC st).added =
      (fwdCreatedPairs (forwardExecute env ops domains target maxC st).log).length ∧
    ∀ term msg : String, strHas (fwdErrMsg term msg) term = true := by
  obtain ⟨dcon, he, ha, -, -, -, -, -, -⟩ := forwardExecute_delta env ops domains target maxC st
  exact ⟨he, ha, fun term msg => strHas_of_parts _ term _⟩

/-- C7 counterexample: the recorded message for a failed candidate contains
the term but not the domain (the claim says it includes both), while the
pass continues and still creates the next candidate. -/
theorem forward_error_message_counterexample :
    (forwardExecute envC7 exactOps ["MATH"] 2 3 stW1).errors = [fwdErrMsg "Bad" "boom"] ∧
    strHas (fwdErrMsg "Bad" "boom") "Bad" = true ∧
    strHas (fwdErrMsg "Bad" "boom") "MATH" = false ∧
    (forwardExecute envC7 exactOps ["MATH"] 2 3 stW1).added = 1 :=
  ⟨rfl, rfl, rfl, rfl⟩

/-- C6 (amended): of the per-candidate exception sources in the backward
pass, the two inside the `try` — the creation of a new prerequisite and the
`add_requires` linking it — are caught, recorded as one formatted error (the
message contains the term), and the loop continues with the next candidate:
both catch paths step to the loop's tail with the error appended, any
successful return's error list is exactly the formatted failures with
`concepts_added` counting only created concepts, and an abort can only carry
an exception raised by `add_requires` — the one source outside the handler,
the linking of an already-existing prerequisite (see the counterexample). -/
theorem backward_error_isolation (env : Env) (ops : StoreOps) (domains : List String)
    (target : Nat) (minC : Int) (st : Store) :
    (∀ s1, backwardExecute env ops domains target minC st = Except.ok s1 →
      s1.errors = (bwdFailedPairs s1.log).map (fun q => bwdErrMsg q.1 q.2) ∧
      s1.added = (bwdCreatedPairs s1.log).length) ∧
    (∀ e, backwardExecute env ops domains target minC st = Except.error e →
      ∃ a b, ops.addRequiresExc a b = some e) ∧
    (∀ (domain : String) (concept : Concept) (s : BwdState) (term : String)
        (rest : List String) (st1 : Store) (e : String),
      ¬ target ≤ s.added →
      ops.lookup s.store.concepts term = none →
      createPrerequisite env ops term domain concept.subfield concept s.store =
        (st1, Except.error e) →
      bwdTerms env ops target domain concept s (term :: rest) =
        bwdTerms env ops target domain concept
          { s with store := st1, errors := s.errors ++ [bwdErrMsg term e],
                   log := s.log ++ [BwdEvent.failed term e] } rest) ∧
    (∀ (domain : String) (concept : Concept) (s : BwdState) (term : String)
        (rest : List String) (st1 : Store) (p : Concept) (e : String),
      ¬ target ≤ s.added →
      ops.lookup s.store.concepts term = none →
      createPrerequisite env ops term domain concept.subfield concept s.store =
        (st1, Except.ok (some p)) →
      ops.addRequiresExc concept.id p.id = some e →
      bwdTerms env ops target domain concept s (term :: rest) =
        bwdTerms env ops target domain concept
          { s with store := st1, errors := s.errors ++ [bwdErrMsg term e],
                   log := s.log ++ [BwdEvent.failed term e] } rest) ∧
    (∀ term msg : String, strHas (bwdErrMsg term msg) term = true) := by
  refine ⟨?_, ?_, ?_, ?_, fun term msg => strHas_of_parts _ term _⟩
  · intro s1 h
    obtain ⟨dcon, he, ha, -, -, -, -, -, -⟩ :=
      backwardExecute_delta env ops domains target minC st s1 h
    exact ⟨he, ha⟩
  · intro e h
    exact bwdDomains_error_source env ops target minC domains _ e h
  · intro domain concept s term rest st1 e hnt hnone hec
    simp [bwdTerms, hnt, hnone, hec]
  · intro domain concept s term rest st1 p e hnt hnone hec hexc
    simp [bwdTerms, hnt, hnone, hec, hexc]

/-- Witness for C6 (amended) at concrete inputs: a run where the
`add_requires` for a freshly created prerequisite raises returns normally
with the failure recorded and nothing counted as added; an aborting run's
exception comes from `add_requires`; the in-try `add_requires` failure steps
the candidate loop to its tail with the error appended and the created
concept persisted in the store. -/
theorem backward_error_isolation_witness :
    (bwdResC6.errors = (bwdFailedPairs bwdResC6.log).map (fun q => bwdErrMsg q.1 q.2) ∧
      bwdResC6.added = (bwdCreatedPairs bwdResC6.log).length) ∧
    (∃ a b, opsC6.addRequiresExc a b = some "boom") ∧
    bwdTerms envC3 opsC6c 2 "MATH" vsC3 bwdS0C6 ["Fn"] =
      bwdTerms envC3 opsC6c 2 "MATH" vsC3
        { bwdS0C6 with store := stFnC6,
                       errors := bwdS0C6.errors ++ [bwdErrMsg "Fn" "boom"],
                       log := bwdS0C6.log ++ [BwdEvent.failed "Fn" "boom"] } [] ∧
    strHas (bwdErrMsg "Fn" "boom") "Fn" = true :=
  ⟨(backward_error_isolation envC3 opsC6c ["MATH"] 2 2 stC3).1 bwdResC6 rfl,
   (backward_error_isolation envC6 opsC6 ["MATH"] 1 2 stC6).2.1 "boom" rfl,
   (backward_error_isolation envC3 opsC6c ["MATH"] 2 2 stC3).2.2.2.1 "MATH" vsC3 bwdS0C6
     "Fn" [] stFnC6 cFnW "boom" (by decide) rfl rfl rfl,
   (backward_error_isolation envC3 opsC6c ["MATH"] 2 2 stC3).2.2.2.2 "Fn" "boom"⟩

/-- C6 counterexample: an exception raised while linking an already-existing
prerequisite is not caught — it propagates and aborts the whole backward
pass instead of being recorded in the error list. -/
theorem backward_existing_link_exception :
    backwardExecute envC6 opsC6 ["MATH"] 1 2 stC6 = Except.error "boom" := rfl

/-- C1 (amended): both engines pass the raw candidate term to the store's
`get_by_name` with no case normalization at the call site, so deduplication
is exactly as case-sensitive as the store's lookup.  With a case-insensitive
store (the in-memory store) the claim holds: no created concept collides
case-insensitively with a pre-existing one or with another concept created
in the same pass; every forward event for a candidate matching the initial
store case-insensitively is a skip (counted by `concepts_skipped`, which
equals the number of skip events); and every backward event for such a
candidate only links an existing concept whose name matches it
case-insensitively, counted by `prerequisites_linked`. -/
theorem pass_dedup_ci_store (env : Env) (ops : StoreOps)
    (hlk : ops.lookup = findByNameCI) (domains : List String) (target : Nat)
    (maxC minC : Int) (st : Store) :
    (∀ p ∈ fwdCreatedPairs (forwardExecute env ops domains target maxC st).log,
      ∀ c0 ∈ st.concepts, pyLower c0.name ≠ pyLower p.1.name) ∧
    List.Pairwise (fun p q => pyLower p.1.name ≠ pyLower q.1.name)
      (fwdCreatedPairs (forwardExecute env ops domains target maxC st).log) ∧
    (∀ t, (∃ c0 ∈ st.concepts, pyLower c0.name = pyLower t) →
      ∀ ev ∈ (forwardExecute env ops domains target maxC st).log,
      fwdEventTerm ev = t → ev = FwdEvent.skippedExisting t) ∧
    (forwardExecute env ops domains target maxC st).skipped =
      fwdSkipCount (forwardExecute env ops domains target maxC st).log ∧
    (∀ p ∈ bwdCreatedPairs (bwdLogOf (backwardExecute env ops domains target minC st)),
      ∀ c0 ∈ st.concepts, pyLower c0.name ≠ pyLower p.1.name) ∧
    List.Pairwise (fun p q => pyLower p.1.name ≠ pyLower q.1.name)
      (bwdCreatedPairs (bwdLogOf (backwardExecute env ops domains target minC st))) ∧
    (∀ t, (∃ c0 ∈ st.concepts, pyLower c0.name = pyLower t) →
      ∀ ev ∈ bwdLogOf (backwardExecute env ops domains target minC st),
      bwdEventTerm ev = t →
      ∃ ex, ev = BwdEvent.linkedExisting t ex ∧ pyLower ex.name = pyLower t) ∧
    (∀ s1, backwardExecute env ops domains target minC st = Except.ok s1 →
      s1.linked = bwdLinkCount s1.log) := by
  obtain ⟨dconF, -, -, hskipF, -, -, hdedF, hskEvF, hpwF⟩ :=
    forwardExecute_delta env ops domains target maxC st
  cases hbe : backwardExecute env ops domains target minC st with
  | error e =>
    refine ⟨hdedF hlk, hpwF hlk, hskEvF hlk, hskipF, ?_, ?_, ?_, ?_⟩
    · intro p hp
      simp [bwdLogOf, bwdCreatedPairs] at hp
    · simp [bwdLogOf, bwdCreatedPairs]
    · intro t ht ev hev
      simp [bwdLogOf] at hev
    · intro s1 hs1
      simp at hs1
  | ok s1 =>
    obtain ⟨dconB, -, -, hlinkB, -, -, hdedB, hlevB, hpwB⟩ :=
      backwardExecute_delta env ops domains target minC st s1 hbe
    refine ⟨hdedF hlk, hpwF hlk, hskEvF hlk, hskipF, ?_, ?_, ?_, ?_⟩
    · simpa [bwdLogOf] using hdedB hlk
    · simpa [bwdLogOf] using hpwB hlk
    · intro t ht
      simpa [bwdLogOf] using hlevB hlk t ht
    · intro s2 hs2
      simp only [Except.ok.injEq] at hs2
      subst hs2
      exact hlinkB

/-- Witness for C1 (amended) at concrete inputs: under the case-insensitive
store the created concepts collide with nothing; a candidate matching an
existing concept up to case is skipped and counted by the forward pass; and
the backward pass only links the case-insensitively matching existing
concept, counting it as linked. -/
theorem pass_dedup_ci_store_witness :
    pyLower axC1.name ≠ pyLower cSetW.name ∧
    pyLower vsC3.name ≠ pyLower cFnW.name ∧
    (forwardExecute envC1 ciOps ["MATH"] 2 3 stC1).skipped =
      fwdSkipCount (forwardExecute envC1 ciOps ["MATH"] 2 3 stC1).log ∧
    (∃ ex, BwdEvent.linkedExisting "Set" setEx = BwdEvent.linkedExisting "Set" ex ∧
      pyLower ex.name = pyLower "Set") ∧
    bwdResLinkW.linked = bwdLinkCount bwdResLinkW.log := by
  refine ⟨?_, ?_, ?_, ?_, ?_⟩
  · refine (pass_dedup_ci_store envC1 ciOps rfl ["MATH"] 1 3 2 stW1).1 (cSetW, axC1) ?_
      axC1 ?_
    · rw [show fwdCreatedPairs (forwardExecute envC1 ciOps ["MATH"] 1 3 stW1).log
        = [(cSetW, axC1)] from rfl]
      exact List.mem_singleton.mpr rfl
    · exact List.mem_singleton.mpr rfl
  · refine (pass_dedup_ci_store envC3 ciOps rfl ["MATH"] 1 3 2 stC3).2.2.2.2.1 (cFnW, vsC3) ?_
      vsC3 ?_
    · rw [show bwdCreatedPairs (bwdLogOf (backwardExecute envC3 ciOps ["MATH"] 1 2 stC3))
        = [(cFnW, vsC3)] from rfl]
      exact List.mem_singleton.mpr rfl
    · exact List.mem_singleton.mpr rfl
  · exact (pass_dedup_ci_store envC1 ciOps rfl ["MATH"] 2 3 2 stC1).2.2.2.1
  · refine (pass_dedup_ci_store envC6 ciOps rfl ["MATH"] 1 3 2 stC6).2.2.2.2.2.2.1 "Set"
      ⟨setEx, List.mem_cons_of_mem _ (List.mem_singleton.mpr rfl), rfl⟩
      (BwdEvent.linkedExisting "Set" setEx) ?_ rfl
    rw [show bwdLogOf (backwardExecute envC6 ciOps ["MATH"] 1 2 stC6)
      = [BwdEvent.linkedExisting "Set" setEx] from rfl]
    exact List.mem_singleton.mpr rfl
  · exact (pass_dedup_ci_store envC6 ciOps rfl ["MATH"] 1 3 2 stC6).2.2.2.2.2.2.2
      bwdResLinkW rfl

/-- C1 counterexample: the core performs no case-insensitive comparison at
the call site — with an exact-match store and an existing concept named
`set`, the forward pass creates a second concept named `Set` (equal under the
case-insensitive comparison) and counts nothing as skipped. -/
theorem forward_dedup_counterexample :
    (forwardExecute envC1 exactOps ["MATH"] 1 3 stC1).store.concepts.map (fun c => c.name)
      = ["Ax", "set", "Set"] ∧
    (forwardExecute envC1 exactOps ["MATH"] 1 3 stC1).skipped = 0 ∧
    pyLower "Set" = pyLower "set" :=
  ⟨rfl, rfl, rfl⟩
/-- C9 (amended): the seed list is all axioms of the domain followed — only
when fewer than 20 axioms were gathered — by shuffled concepts with
complexity level in [1, max_complexity], truncated so that the list then has
at most 20 elements; when the domain already holds 20 or more axioms nothing
is appended and the seed list is exactly the axioms, which may exceed the
cap of 20 (see the counterexample). -/
theorem seed_concepts_structure (env : Env) (st : Store) (domain : String) (maxC : Int)
    (hperm : ∀ l, List.Perm (env.shuffle l) l) :
    ∃ extras, getSeedConcepts env st domain maxC = st.getAxioms domain ++ extras ∧
      (20 ≤ (st.getAxioms domain).length → extras = []) ∧
      ((st.getAxioms domain).length < 20 →
        (getSeedConcepts env st domain maxC).length ≤ 20) ∧
      ∀ c ∈ extras, c.domain = domain ∧ 1 ≤ c.complexity_level ∧ c.complexity_level ≤ maxC := by
  by_cases hlen : (st.getAxioms domain).length < 20
  · refine ⟨(env.shuffle (st.getByComplexityRange domain 1 maxC)).take
      (20 - (st.getAxioms domain).length), ?_, ?_, ?_, ?_⟩
    · simp [getSeedConcepts, hlen]
    · intro h
      omega
    · intro h
      have htk : ((env.shuffle (st.getByComplexityRange domain 1 maxC)).take
          (20 - (st.getAxioms domain).length)).length ≤
          20 - (st.getAxioms domain).length := by
        rw [List.length_take]
        omega
      have hss : getSeedConcepts env st domain maxC = st.getAxioms domain ++
          (env.shuffle (st.getByComplexityRange domain 1 maxC)).take
            (20 - (st.getAxioms domain).length) := by
        simp [getSeedConcepts, hlen]
      rw [hss, List.length_append]
      omega
    · intro c hc
      have hc2 : c ∈ env.shuffle (st.getByComplexityRange domain 1 maxC) :=
        List.mem_of_mem_take hc
      have hc3 : c ∈ st.getByComplexityRange domain 1 maxC :=
        (hperm (st.getByComplexityRange domain 1 maxC)).mem_iff.mp hc2
      simp only [Store.getByComplexityRange, List.mem_filter, Bool.and_eq_true,
        beq_iff_eq, decide_eq_true_eq] at hc3
      exact ⟨hc3.2.1.1, hc3.2.1.2, hc3.2.2⟩
  · refine ⟨[], ?_, fun _ => rfl, fun h => absurd h hlen, ?_⟩
    · simp [getSeedConcepts, hlen]
    · intro c hc
      simp at hc

/-- C9 counterexample: a domain holding 21 axioms yields a seed list of 21
concepts, exceeding the fixed cap of 20. -/
theorem seed_cap_counterexample :
    (getSeedConcepts baseEnv st21 "MATH" 3).length = 21 := rfl

/-- Witness for C9 (amended) at a concrete input with the identity shuffle. -/
theorem seed_concepts_structure_witness :
    ∃ extras, getSeedConcepts baseEnv stC1 "MATH" 3 = stC1.getAxioms "MATH" ++ extras ∧
      (20 ≤ (stC1.getAxioms "MATH").length → extras = []) ∧
      ((stC1.getAxioms "MATH").length < 20 →
        (getSeedConcepts baseEnv stC1 "MATH" 3).length ≤ 20) ∧
      ∀ c ∈ extras, c.domain = "MATH" ∧ 1 ≤ c.complexity_level ∧ c.complexity_level ≤ 3 :=
  seed_concepts_structure baseEnv stC1 "MATH" 3 (fun l => List.Perm.refl l)

/-- C8: with the backend output being the fenced one-element `Set` path, the
MVG service returns a one-node path with name `Set`, axiom flag true and
explanation `e`; any backend output whose unfenced text fails to parse as
JSON raises the validation `ValueError`; and a backend/transport failure
surfaces as a distinct error kind. -/
theorem mvg_parse_and_validation :
    mvgGenerate [] "Set" "MATH" (Except.ok fencedSetJson) =
      Except.ok
        { target := "Set"
          domain := "MATH"
          path := [{ name := "Set", description := "d", is_axiom := true, concept_id := none }]
          explanation := "e" } ∧
    (∀ (domainConcepts : List Concept) (target domain raw : String),
      jsonLoads (stripCodeFence (pyStrip raw)) = none →
        mvgGenerate domainConcepts target domain (Except.ok raw)
          = Except.error (MVGError.validation "Failed to parse LLM response as JSON")) ∧
    (∀ (domainConcepts : List Concept) (target domain msg : String),
      mvgGenerate domainConcepts target domain (Except.error msg)
        = Except.error (MVGError.backendFailure msg)) ∧
    (∀ m e, MVGError.validation m ≠ MVGError.backendFailure e) := by
  refine ⟨rfl, ?_, ?_, ?_⟩
  · intro domainConcepts target domain raw h
    simp only [mvgGenerate, h]
  · intro domainConcepts target domain msg
    rfl
  · intro m e h
    exact MVGError.noConfusion h

/-- Witness for C8 at a concrete unparseable backend output. -/
theorem mvg_parse_and_validation_witness :
    mvgGenerate [] "T" "MATH" (Except.ok "nope")
      = Except.error (MVGError.validation "Failed to parse LLM response as JSON") :=
  mvg_parse_and_validation.2.1 [] "T" "MATH" "nope" rfl

end KnowledgeTree
